import Mathlib

/-!
Verification development for the stackbuilder build assembly engine.

The definitions below are shallow embeddings of the Rust source:
  * `merge_yaml_values`, `load_compose_file`, `merge_compose_files`,
    `resolve_merge_order` from `src/merger.rs`;
  * `resolve_legacy_combinations_with_targets`, `determine_build_combinations`,
    `execute_build`, `resolve_all_extensions` from `src/build.rs`;
  * `resolve_combo_extensions`, `get_environments_list`,
    `get_environment_config` from `src/config.rs`;
  * `analyze_env_file_path`, `find_best_path_mapping`, `restore_single_file`,
    `restore_env_files`, `create_backup_for_failed_files` from
    `src/build_cleaner.rs`.

YAML documents are modelled by the inductive `Value` (mappings are ordered
association lists with string keys, as produced by the YAML parser for
docker-compose documents; sequences are lists; scalars are null, booleans,
numbers and strings).  The filesystem is modelled as a function from
path strings to optional file contents.
-/

namespace Stackbuilder

/-- YAML value, mirroring `serde_yaml::Value` as used by the merger.
Mappings preserve insertion order, like the `IndexMap`-backed
`serde_yaml::Mapping`. -/
inductive Value where
  | null : Value
  | bool : Bool → Value
  | num : Int → Value
  | str : String → Value
  | seq : List Value → Value
  | map : List (String × Value) → Value

/-- First-match lookup in an ordered mapping (`Mapping::get`). -/
def assocGet (m : List (String × Value)) (k : String) : Option Value :=
  match m with
  | [] => none
  | (k1, v1) :: rest => if k1 = k then some v1 else assocGet rest k

/-- The map insert `Mapping::insert`: replace the value at an existing key in place,
otherwise append the new entry at the end. -/
def assocInsert (m : List (String × Value)) (k : String) (v : Value) :
    List (String × Value) :=
  match m with
  | [] => [(k, v)]
  | (k1, v1) :: rest =>
      if k1 = k then (k1, v) :: rest else (k1, v1) :: assocInsert rest k v

mutual

/-- Function `merge_yaml_values` from `src/merger.rs`: recursively merge two YAML
values.  Mappings merge key-wise, sequences concatenate, anything else is
replaced by the override value. -/
def merge_yaml_values : Value → Value → Value
  | Value.map base_map, Value.map override_map =>
      Value.map (merge_into base_map override_map)
  | Value.seq base_seq, Value.seq override_seq =>
      Value.seq (base_seq ++ override_seq)
  | _, override_val => override_val

/-- The loop body of the mapping case of `merge_yaml_values`: fold the
override entries into the base mapping. -/
def merge_into (base_map : List (String × Value)) :
    List (String × Value) → List (String × Value)
  | [] => base_map
  | (key, value) :: rest =>
      match assocGet base_map key with
      | some base_value =>
          merge_into (assocInsert base_map key (merge_yaml_values base_value value)) rest
      | none => merge_into (base_map ++ [(key, value)]) rest

end

/-- Whether a value is a mapping. -/
def Value.isMap : Value → Bool
  | Value.map _ => true
  | _ => false

/-- Whether a value is a sequence. -/
def Value.isSeq : Value → Bool
  | Value.seq _ => true
  | _ => false

/-- Whether a value is a scalar (string/number/bool/null). -/
def Value.isScalar (v : Value) : Bool :=
  !v.isMap && !v.isSeq

/-- Keys of an ordered mapping, in order. -/
def assocKeys (m : List (String × Value)) : List String :=
  m.map Prod.fst

theorem assocGet_append (m1 m2 : List (String × Value)) (k : String) :
    assocGet (m1 ++ m2) k =
      match assocGet m1 k with
      | some v => some v
      | none => assocGet m2 k := by
  induction m1 with
  | nil => simp [assocGet]
  | cons kv rest ih =>
      obtain ⟨k1, v1⟩ := kv
      by_cases h : k1 = k <;> simp [assocGet, h, ih]

theorem assocGet_insert_same (m : List (String × Value)) (k : String) (v : Value) :
    assocGet (assocInsert m k v) k = some v := by
  induction m with
  | nil => simp [assocInsert, assocGet]
  | cons kv rest ih =>
      obtain ⟨k1, v1⟩ := kv
      by_cases h : k1 = k <;> simp [assocInsert, assocGet, h, ih]

theorem assocGet_insert_other (m : List (String × Value)) (k j : String) (v : Value)
    (hne : j ≠ k) : assocGet (assocInsert m k v) j = assocGet m j := by
  have hkj : ¬k = j := fun h => hne h.symm
  induction m with
  | nil => simp [assocInsert, assocGet, hkj]
  | cons kv rest ih =>
      obtain ⟨k1, v1⟩ := kv
      by_cases h : k1 = k
      · subst h
        simp [assocInsert, assocGet, hkj]
      · simp [assocInsert, assocGet, h, ih]

theorem assocGet_eq_none_of_not_mem (m : List (String × Value)) (k : String)
    (h : k ∉ assocKeys m) : assocGet m k = none := by
  induction m with
  | nil => rfl
  | cons kv rest ih =>
      obtain ⟨k1, v1⟩ := kv
      have hkeys : assocKeys ((k1, v1) :: rest) = k1 :: assocKeys rest := by
        simp [assocKeys]
      rw [hkeys, List.mem_cons] at h
      push_neg at h
      have h1 : ¬k1 = k := fun hh => h.1 hh.symm
      simp [assocGet, h1, ih h.2]

/-- Processing override entries whose keys avoid `k` leaves the entry at `k`
unchanged. -/
theorem merge_into_get_of_none (om : List (String × Value)) (bm : List (String × Value))
    (k : String) (h : assocGet om k = none) :
    assocGet (merge_into bm om) k = assocGet bm k := by
  induction om generalizing bm with
  | nil => rfl
  | cons kv rest ih =>
      obtain ⟨k1, v1⟩ := kv
      have hne : ¬k1 = k := by
        intro hh
        simp [assocGet, hh] at h
      have hrest : assocGet rest k = none := by
        simpa [assocGet, hne] using h
      cases hb : assocGet bm k1 with
      | some bv =>
          rw [merge_into, hb]
          rw [ih _ hrest, assocGet_insert_other _ _ _ _ (fun hh => hne hh.symm)]
      | none =>
          rw [merge_into, hb]
          rw [ih _ hrest, assocGet_append]
          cases hbk : assocGet bm k <;> simp [assocGet, hne, hbk]

/-- Key-wise characterization of the mapping merge: a key only in the
increment is added, a key in both recurses, a key only in the accumulator
is kept. -/
theorem merge_into_get (om : List (String × Value)) (bm : List (String × Value))
    (k : String) (ho : (assocKeys om).Nodup) :
    assocGet (merge_into bm om) k =
      match assocGet bm k, assocGet om k with
      | some bv, some ov => some (merge_yaml_values bv ov)
      | some bv, none => some bv
      | none, some ov => some ov
      | none, none => none := by
  induction om generalizing bm with
  | nil => cases h : assocGet bm k <;> simp [merge_into, assocGet, h]
  | cons kv rest ih =>
      obtain ⟨k1, v1⟩ := kv
      have hkeys : assocKeys ((k1, v1) :: rest) = k1 :: assocKeys rest := by
        simp [assocKeys]
      rw [hkeys, List.nodup_cons] at ho
      obtain ⟨hk1, hrest⟩ := ho
      by_cases hk : k1 = k
      · subst hk
        have hnone : assocGet rest k1 = none := assocGet_eq_none_of_not_mem _ _ hk1
        cases hb : assocGet bm k1 with
        | some bv =>
            rw [merge_into, hb]
            rw [merge_into_get_of_none _ _ _ hnone, assocGet_insert_same]
            simp [assocGet, hb]
        | none =>
            rw [merge_into, hb]
            rw [merge_into_get_of_none _ _ _ hnone, assocGet_append, hb]
            simp [assocGet]
      · cases hb : assocGet bm k1 with
        | some bv =>
            rw [merge_into, hb]
            rw [ih _ hrest, assocGet_insert_other _ _ _ _ (fun hh => hk hh.symm)]
            simp [assocGet, hk]
        | none =>
            rw [merge_into, hb]
            rw [ih _ hrest, assocGet_append]
            cases hbk : assocGet bm k <;> simp [assocGet, hk, hbk]

theorem merge_map_map (bm om : List (String × Value)) :
    merge_yaml_values (Value.map bm) (Value.map om) = Value.map (merge_into bm om) :=
  rfl

theorem merge_seq_seq (bs os : List Value) :
    merge_yaml_values (Value.seq bs) (Value.seq os) = Value.seq (bs ++ os) :=
  rfl

/-- For any other type pairing, the increment replaces the accumulator. -/
theorem merge_override (b o : Value) (hm : ¬(b.isMap ∧ o.isMap))
    (hs : ¬(b.isSeq ∧ o.isSeq)) : merge_yaml_values b o = o := by
  cases b <;> cases o <;> simp_all [Value.isMap, Value.isSeq, merge_yaml_values]

/-- C1: a single `merge_yaml_values` step follows the four-case table: two
mappings merge key-wise (keys only in the increment are added, keys in both
recurse, keys only in the accumulator are kept, so a key absent from the
increment is never removed); two sequences concatenate with the increment
appended after the accumulator; any other type pairing is completely
replaced by the increment. -/
theorem c1_merge_four_case_table (bm om : List (String × Value)) (k : String)
    (bs os : List Value) (b o : Value)
    (ho : (assocKeys om).Nodup)
    (hm : ¬(b.isMap ∧ o.isMap)) (hs : ¬(b.isSeq ∧ o.isSeq)) :
    (merge_yaml_values (Value.map bm) (Value.map om) = Value.map (merge_into bm om)
      ∧ assocGet (merge_into bm om) k =
          match assocGet bm k, assocGet om k with
          | some bv, some ov => some (merge_yaml_values bv ov)
          | some bv, none => some bv
          | none, some ov => some ov
          | none, none => none)
    ∧ merge_yaml_values (Value.seq bs) (Value.seq os) = Value.seq (bs ++ os)
    ∧ merge_yaml_values b o = o :=
  ⟨⟨merge_map_map bm om, merge_into_get om bm k ho⟩, merge_seq_seq bs os,
    merge_override b o hm hs⟩

/-- Witness for C1 at concrete mappings, sequences and scalars. -/
theorem c1_merge_four_case_table_witness :
    (merge_yaml_values (Value.map [("x", Value.num 1), ("z", Value.num 3)])
        (Value.map [("x", Value.num 2), ("y", Value.num 9)]) =
      Value.map (merge_into [("x", Value.num 1), ("z", Value.num 3)]
        [("x", Value.num 2), ("y", Value.num 9)])
      ∧ assocGet (merge_into [("x", Value.num 1), ("z", Value.num 3)]
            [("x", Value.num 2), ("y", Value.num 9)]) "z" =
          match assocGet [("x", Value.num 1), ("z", Value.num 3)] "z",
              assocGet [("x", Value.num 2), ("y", Value.num 9)] "z" with
          | some bv, some ov => some (merge_yaml_values bv ov)
          | some bv, none => some bv
          | none, some ov => some ov
          | none, none => none)
    ∧ merge_yaml_values (Value.seq [Value.num 1]) (Value.seq [Value.num 2]) =
        Value.seq ([Value.num 1] ++ [Value.num 2])
    ∧ merge_yaml_values (Value.num 5) (Value.str "s") = Value.str "s" :=
  c1_merge_four_case_table [("x", Value.num 1), ("z", Value.num 3)]
    [("x", Value.num 2), ("y", Value.num 9)] "z" [Value.num 1] [Value.num 2]
    (Value.num 5) (Value.str "s") (by decide) (by decide) (by decide)

/-! ### Key paths and the fold of layers (for the left-bias property) -/

/-- Look a key path up in a nested document: each path component descends
through a mapping entry. -/
def getPath : Value → List String → Option Value
  | v, [] => some v
  | Value.map m, k :: rest =>
      match assocGet m k with
      | some v => getPath v rest
      | none => none
  | _, _ :: _ => none

theorem getPath_nil (v : Value) : getPath v [] = some v := by
  cases v <;> rfl

theorem getPath_map_cons (m : List (String × Value)) (k : String) (rest : List String) :
    getPath (Value.map m) (k :: rest) =
      match assocGet m k with
      | some v => getPath v rest
      | none => none :=
  rfl

mutual

/-- Well-formedness of a YAML document: every nested mapping has pairwise
distinct keys (guaranteed by the YAML parser). -/
def wf : Value → Bool
  | Value.null => true
  | Value.bool _ => true
  | Value.num _ => true
  | Value.str _ => true
  | Value.seq items => wfList items
  | Value.map entries => decide ((assocKeys entries).Nodup) && wfEntries entries

def wfList : List Value → Bool
  | [] => true
  | v :: rest => wf v && wfList rest

def wfEntries : List (String × Value) → Bool
  | [] => true
  | (_, v) :: rest => wf v && wfEntries rest

end

theorem wf_map_nodup (m : List (String × Value)) (h : wf (Value.map m) = true) :
    (assocKeys m).Nodup := by
  simp [wf, Bool.and_eq_true, decide_eq_true_eq] at h
  exact h.1

theorem wfEntries_get (m : List (String × Value)) (k : String) (v : Value)
    (h : wfEntries m = true) (hget : assocGet m k = some v) : wf v = true := by
  induction m with
  | nil => simp [assocGet] at hget
  | cons kv rest ih =>
      obtain ⟨k1, v1⟩ := kv
      rw [wfEntries, Bool.and_eq_true] at h
      by_cases hk : k1 = k
      · have : v1 = v := by simpa [assocGet, hk] using hget
        exact this ▸ h.1
      · exact ih h.2 (by simpa [assocGet, hk] using hget)

theorem wf_map_entry (m : List (String × Value)) (k : String) (v : Value)
    (h : wf (Value.map m) = true) (hget : assocGet m k = some v) : wf v = true := by
  rw [wf, Bool.and_eq_true] at h
  exact wfEntries_get m k v h.2 hget

/-- If the increment defines a scalar at a key path, the merge result holds
exactly that scalar there, whatever the accumulator contains. -/
theorem getPath_merge_of_scalar (p : List String) (b o w : Value)
    (hwf : wf o = true) (hget : getPath o p = some w) (hsc : w.isScalar = true) :
    getPath (merge_yaml_values b o) p = some w := by
  induction p generalizing b o with
  | nil =>
      have how : o = w := by simpa [getPath] using hget
      subst how
      have hover : merge_yaml_values b o = o := by
        refine merge_override b o ?_ ?_ <;>
          · rintro ⟨h1, h2⟩
            simp [Value.isScalar, Bool.and_eq_true] at hsc
            cases o <;> simp_all [Value.isMap, Value.isSeq]
      simp [hover, getPath]
  | cons k rest ih =>
      cases o with
      | map om =>
          cases hok : assocGet om k with
          | some ov =>
              have hrest : getPath ov rest = some w := by
                simpa [getPath_map_cons, hok] using hget
              have hov_wf : wf ov = true := wf_map_entry om k ov hwf hok
              cases b with
              | map bm =>
                  rw [merge_map_map, getPath_map_cons,
                    merge_into_get om bm k (wf_map_nodup om hwf), hok]
                  cases hbk : assocGet bm k with
                  | some bv => exact ih bv ov hov_wf hrest
                  | none => exact hrest
              | null =>
                  have : merge_yaml_values Value.null (Value.map om) = Value.map om := rfl
                  rw [this]; exact hget
              | bool bb =>
                  have : merge_yaml_values (Value.bool bb) (Value.map om) = Value.map om := rfl
                  rw [this]; exact hget
              | num n =>
                  have : merge_yaml_values (Value.num n) (Value.map om) = Value.map om := rfl
                  rw [this]; exact hget
              | str s =>
                  have : merge_yaml_values (Value.str s) (Value.map om) = Value.map om := rfl
                  rw [this]; exact hget
              | seq bs =>
                  have : merge_yaml_values (Value.seq bs) (Value.map om) = Value.map om := rfl
                  rw [this]; exact hget
          | none =>
              rw [getPath_map_cons, hok] at hget
              exact absurd hget (by simp)
      | null => simp [getPath] at hget
      | bool bb => simp [getPath] at hget
      | num n => simp [getPath] at hget
      | str s => simp [getPath] at hget
      | seq os => simp [getPath] at hget

/-- If the increment does not define a key path, and every value it holds
at a proper path-prefix is a mapping, then the merge preserves the
accumulator at that path. -/
theorem getPath_merge_of_none (p : List String) (b o : Value)
    (hwf : wf o = true)
    (hpre : ∀ q v, q <+: p → q ≠ p → getPath o q = some v → v.isMap = true)
    (hnone : getPath o p = none) :
    getPath (merge_yaml_values b o) p = getPath b p := by
  induction p generalizing b o with
  | nil => simp [getPath] at hnone
  | cons k rest ih =>
      have homap : o.isMap = true :=
        hpre [] o ⟨k :: rest, rfl⟩ (by simp) (by simp [getPath])
      cases o with
      | map om =>
          cases b with
          | map bm =>
              rw [merge_map_map, getPath_map_cons,
                merge_into_get om bm k (wf_map_nodup om hwf)]
              cases hok : assocGet om k with
              | some ov =>
                  have hrest_none : getPath ov rest = none := by
                    simpa [getPath_map_cons, hok] using hnone
                  have hov_wf : wf ov = true := wf_map_entry om k ov hwf hok
                  have hpre2 : ∀ q v, q <+: rest → q ≠ rest →
                      getPath ov q = some v → v.isMap = true := by
                    intro q v hq hne hg
                    obtain ⟨t, ht⟩ := hq
                    refine hpre (k :: q) v ⟨t, by rw [List.cons_append, ht]⟩ ?_ ?_
                    · intro hh
                      exact hne (by injection hh)
                    · simpa [getPath_map_cons, hok] using hg
                  cases hbk : assocGet bm k with
                  | some bv =>
                      rw [getPath_map_cons, hbk]
                      exact ih bv ov hov_wf hpre2 hrest_none
                  | none =>
                      rw [getPath_map_cons, hbk]
                      exact hrest_none
              | none =>
                  cases hbk : assocGet bm k with
                  | some bv => rw [getPath_map_cons, hbk]
                  | none => rw [getPath_map_cons, hbk]
          | null =>
              have : merge_yaml_values Value.null (Value.map om) = Value.map om := rfl
              rw [this, hnone]; rfl
          | bool bb =>
              have : merge_yaml_values (Value.bool bb) (Value.map om) = Value.map om := rfl
              rw [this, hnone]; rfl
          | num n =>
              have : merge_yaml_values (Value.num n) (Value.map om) = Value.map om := rfl
              rw [this, hnone]; rfl
          | str s =>
              have : merge_yaml_values (Value.str s) (Value.map om) = Value.map om := rfl
              rw [this, hnone]; rfl
          | seq bs =>
              have : merge_yaml_values (Value.seq bs) (Value.map om) = Value.map om := rfl
              rw [this, hnone]; rfl
      | null => simp [Value.isMap] at homap
      | bool bb => simp [Value.isMap] at homap
      | num n => simp [Value.isMap] at homap
      | str s => simp [Value.isMap] at homap
      | seq os => simp [Value.isMap] at homap

/-- The last layer of the list that defines the given key path (the
highest-index defining layer). -/
def lastDefining (p : List String) : List Value → Option Value
  | [] => none
  | l :: rest =>
      match lastDefining p rest with
      | some ld => some ld
      | none => if (getPath l p).isSome then some l else none

/-- Invariant of the pairwise left fold of `merge_yaml_values`: at a path
where every layer is scalar-or-absent (and prefix-clean), the fold holds
the value of the last defining layer, or the accumulator value if none
defines it. -/
theorem foldl_merge_getPath (p : List String) (rest : List Value) :
    ∀ (acc : Value),
    (∀ l ∈ rest, wf l = true) →
    (∀ l ∈ rest, ∀ v, getPath l p = some v → v.isScalar = true) →
    (∀ l ∈ rest, ∀ q v, q <+: p → q ≠ p → getPath l q = some v → v.isMap = true) →
    getPath (rest.foldl merge_yaml_values acc) p =
      match lastDefining p rest with
      | some ld => getPath ld p
      | none => getPath acc p := by
  induction rest with
  | nil => intro acc _ _ _; simp [List.foldl, lastDefining]
  | cons o rest' ih =>
      intro acc hwf hsc hpre
      have hwf' : ∀ l ∈ rest', wf l = true := fun l hl => hwf l (List.mem_cons_of_mem _ hl)
      have hsc' : ∀ l ∈ rest', ∀ v, getPath l p = some v → v.isScalar = true :=
        fun l hl => hsc l (List.mem_cons_of_mem _ hl)
      have hpre' : ∀ l ∈ rest', ∀ q v, q <+: p → q ≠ p → getPath l q = some v →
          v.isMap = true := fun l hl => hpre l (List.mem_cons_of_mem _ hl)
      have howf : wf o = true := hwf o (List.mem_cons_self _ _)
      rw [List.foldl_cons, ih (merge_yaml_values acc o) hwf' hsc' hpre']
      cases hld : lastDefining p rest' with
      | some ld =>
          have hlast : lastDefining p (o :: rest') = some ld := by
            simp [lastDefining, hld]
          simp only [hld, hlast]
      | none =>
          cases hop : getPath o p with
          | some w =>
              have hmerge : getPath (merge_yaml_values acc o) p = some w :=
                getPath_merge_of_scalar p acc o w howf hop
                  (hsc o (List.mem_cons_self _ _) w hop)
              have hlast : lastDefining p (o :: rest') = some o := by
                simp [lastDefining, hld, hop]
              simp only [hld, hlast]
              rw [hmerge, hop]
          | none =>
              have hmerge : getPath (merge_yaml_values acc o) p = getPath acc p :=
                getPath_merge_of_none p acc o howf
                  (hpre o (List.mem_cons_self _ _)) hop
              have hlast : lastDefining p (o :: rest') = none := by
                simp [lastDefining, hld, hop]
              simp only [hld, hlast]
              exact hmerge

/-- C8 (amended): for an ordered list of layers folded pairwise by
`merge_yaml_values`, and a key path such that every layer that defines the
path gives it a scalar value and every layer value at a proper path-prefix
is a mapping, the final merged value at that path equals the value from the
highest-index layer that defines it. -/
theorem c8_left_bias (p : List String) (l0 : Value) (rest : List Value) (ld : Value)
    (hwf : ∀ l ∈ l0 :: rest, wf l = true)
    (hsc : ∀ l ∈ l0 :: rest, ∀ v, getPath l p = some v → v.isScalar = true)
    (hpre : ∀ l ∈ l0 :: rest, ∀ q v, q <+: p → q ≠ p → getPath l q = some v →
      v.isMap = true)
    (hlast : lastDefining p (l0 :: rest) = some ld) :
    getPath (rest.foldl merge_yaml_values l0) p = getPath ld p := by
  have hwf' : ∀ l ∈ rest, wf l = true := fun l hl => hwf l (List.mem_cons_of_mem _ hl)
  have hsc' : ∀ l ∈ rest, ∀ v, getPath l p = some v → v.isScalar = true :=
    fun l hl => hsc l (List.mem_cons_of_mem _ hl)
  have hpre' : ∀ l ∈ rest, ∀ q v, q <+: p → q ≠ p → getPath l q = some v →
      v.isMap = true := fun l hl => hpre l (List.mem_cons_of_mem _ hl)
  rw [foldl_merge_getPath p rest l0 hwf' hsc' hpre']
  cases hld : lastDefining p rest with
  | some ld2 =>
      have : lastDefining p (l0 :: rest) = some ld2 := by simp [lastDefining, hld]
      rw [this] at hlast
      injection hlast with h
      rw [h]
  | none =>
      rw [lastDefining, hld] at hlast
      by_cases hl0 : (getPath l0 p).isSome
      · simp only [hl0, if_true] at hlast
        injection hlast with h
        rw [h]
      · simp only [hl0, if_false] at hlast
        cases hlast

/-- Counterexample to C8 as stated: the path `a` has a scalar value in the
first two layers, but the two later layers define it as sequences, which
concatenate; the final value differs from the value of the highest-index
defining layer. -/
theorem c8_counterexample :
    getPath (Value.map [("a", Value.num 1)]) ["a"] = some (Value.num 1)
    ∧ (Value.num 1).isScalar = true
    ∧ getPath (Value.map [("a", Value.num 2)]) ["a"] = some (Value.num 2)
    ∧ (Value.num 2).isScalar = true
    ∧ lastDefining ["a"]
        [Value.map [("a", Value.num 1)], Value.map [("a", Value.num 2)],
         Value.map [("a", Value.seq [Value.num 5])],
         Value.map [("a", Value.seq [Value.num 6])]] =
        some (Value.map [("a", Value.seq [Value.num 6])])
    ∧ getPath
        ([Value.map [("a", Value.num 2)],
          Value.map [("a", Value.seq [Value.num 5])],
          Value.map [("a", Value.seq [Value.num 6])]].foldl merge_yaml_values
          (Value.map [("a", Value.num 1)])) ["a"] =
        some (Value.seq [Value.num 5, Value.num 6])
    ∧ getPath (Value.map [("a", Value.seq [Value.num 6])]) ["a"] =
        some (Value.seq [Value.num 6])
    ∧ Value.seq [Value.num 5, Value.num 6] ≠ Value.seq [Value.num 6] := by
  refine ⟨rfl, rfl, rfl, rfl, rfl, rfl, rfl, ?_⟩
  intro h
  injection h with h1
  injection h1 with h2 h3
  exact List.cons_ne_nil _ _ h3

/-- Witness for C8 at two concrete scalar layers. -/
theorem c8_left_bias_witness :
    getPath ([Value.map [("a", Value.num 2)]].foldl merge_yaml_values
        (Value.map [("a", Value.num 1)])) ["a"] =
      getPath (Value.map [("a", Value.num 2)]) ["a"] := by
  refine c8_left_bias ["a"] (Value.map [("a", Value.num 1)])
    [Value.map [("a", Value.num 2)]] (Value.map [("a", Value.num 2)]) ?_ ?_ ?_ rfl
  · intro l hl
    rcases List.mem_cons.mp hl with h | h
    · rw [h]; decide
    · rcases List.mem_cons.mp h with h2 | h2
      · rw [h2]; decide
      · cases h2
  · intro l hl v hv
    rcases List.mem_cons.mp hl with h | h
    · rw [h] at hv
      have : v = Value.num 1 := by
        have hv2 : some (Value.num 1) = some v := by
          rw [← hv]; rfl
        injection hv2 with h3
        exact h3.symm
      rw [this]; rfl
    · rcases List.mem_cons.mp h with h2 | h2
      · rw [h2] at hv
        have : v = Value.num 2 := by
          have hv2 : some (Value.num 2) = some v := by
            rw [← hv]; rfl
          injection hv2 with h3
          exact h3.symm
        rw [this]; rfl
      · cases h2
  · intro l hl q v hq hne hg
    have hq0 : q = [] := by
      obtain ⟨t, ht⟩ := hq
      cases q with
      | nil => rfl
      | cons a q2 =>
          rw [List.cons_append] at ht
          injection ht with ha ht2
          have hq2 : q2 = [] := by
            cases q2 with
            | nil => rfl
            | cons b q3 => simp at ht2
          exact absurd (by rw [ha, hq2]) hne
    rw [hq0, getPath_nil] at hg
    have hlv : v = l := by
      injection hg with h3
      exact h3.symm
    rw [hlv]
    rcases List.mem_cons.mp hl with h | h
    · rw [h]; rfl
    · rcases List.mem_cons.mp h with h2 | h2
      · rw [h2]; rfl
      · cases h2

/-! ### Configuration model and the combination planner (`src/config.rs`,
`src/build.rs`) -/

/-- Per-environment target configuration (`EnvironmentTarget` /
`EnvironmentConfig` in `src/config.rs`; the two have identical fields and
`resolve_new_api_combinations` converts one into the other). -/
structure EnvironmentTarget where
  extensions : Option (List String)
  combos : Option (List String)
  skip_base_generation : Option Bool

/-- Legacy `[build.targets]` table: environment name to target
configuration.  The Rust `HashMap` is modelled as an association list. -/
structure BuildTargets where
  environment_configs : List (String × EnvironmentTarget)

/-- New `[build.environments]` table. -/
structure BuildEnvironments where
  available : Option (List String)
  environment_configs : List (String × EnvironmentTarget)

/-- The build section of `stackbuilder.toml` (the fields the planner and
mergers read).  `combos` is a map from combo name to extension list. -/
structure BuildConfig where
  environments : Option (List String)
  extensions : Option (List String)
  combos : List (String × List String)
  targets : Option BuildTargets
  environments_config : Option BuildEnvironments
  skip_base_generation : Bool

/-- Whole configuration (the planner only reads the build section). -/
structure Config where
  build : BuildConfig

/-- A planned build combination (`BuildCombination` in `src/build.rs`). -/
structure BuildCombination where
  environment : Option String
  extensions : List String
  combo_names : List String
  output_dir : String
deriving DecidableEq

/-- Errors surfaced by the planner: an unresolvable combo reference
(`ValidationError::ComboNotFound`, carrying the unknown name and the list
of registered combos) or an empty combination set
(`BuildError::BuildProcessFailed` with the no-valid-combinations text). -/
inductive BuildError where
  | comboNotFound (combo_name : String) (available_combos : List String)
  | noCombinations
deriving DecidableEq

/-- First-match lookup in an association list keyed by strings. -/
def lookupAssoc {α : Type} (l : List (String × α)) (k : String) : Option α :=
  match l with
  | [] => none
  | (k1, v1) :: rest => if k1 = k then some v1 else lookupAssoc rest k

/-- The key list `config.build.combos.keys()`. -/
def comboKeys (cfg : Config) : List String :=
  cfg.build.combos.map Prod.fst

/-- The list `config.build.extensions` with `None` as the empty list. -/
def globalExtensions (cfg : Config) : List String :=
  cfg.build.extensions.getD []

/-- Function `get_environments_list` from `src/config.rs`: the new API's `available`
list if present, otherwise the legacy `environments` array. -/
def get_environments_list (cfg : Config) : List String :=
  match cfg.build.environments_config with
  | some ec =>
      match ec.available with
      | some av => av
      | none => cfg.build.environments.getD []
  | none => cfg.build.environments.getD []

/-- Function `get_environment_config` from `src/config.rs`: the new API's entry for
the environment if present, otherwise the legacy targets entry. -/
def get_environment_config (cfg : Config) (env : String) : Option EnvironmentTarget :=
  match cfg.build.environments_config with
  | some ec =>
      match lookupAssoc ec.environment_configs env with
      | some c => some c
      | none =>
          match cfg.build.targets with
          | some ts => lookupAssoc ts.environment_configs env
          | none => none
  | none =>
      match cfg.build.targets with
      | some ts => lookupAssoc ts.environment_configs env
      | none => none

/-- The per-environment `(extensions, combos, skip_base)` entry of
`env_specific_configs` in `resolve_legacy_combinations_with_targets`:
built from the given targets table when one is passed, otherwise from
`get_environment_config`. -/
def envSpecificConfig (cfg : Config) (targets : Option BuildTargets) (env : String) :
    Option (List String × List String × Bool) :=
  match targets with
  | some ts =>
      (lookupAssoc ts.environment_configs env).map fun t =>
        (t.extensions.getD [], t.combos.getD [],
          t.skip_base_generation.getD cfg.build.skip_base_generation)
  | none =>
      (get_environment_config cfg env).map fun t =>
        (t.extensions.getD [], t.combos.getD [],
          t.skip_base_generation.getD cfg.build.skip_base_generation)

/-- The effective `(extensions, combos, skip_base)` for an environment:
its specific entry, or the global extensions, all combo names and the
global skip-base flag. -/
def effConfig (cfg : Config) (targets : Option BuildTargets) (env : String) :
    List String × List String × Bool :=
  (envSpecificConfig cfg targets env).getD
    (globalExtensions cfg, comboKeys cfg, cfg.build.skip_base_generation)

/-- The variant count of one environment (extensions + combos). -/
def envVariantCount (cfg : Config) (targets : Option BuildTargets) (env : String) : Nat :=
  (effConfig cfg targets env).1.length + (effConfig cfg targets env).2.1.length

/-- The count `total_variants` in `resolve_legacy_combinations_with_targets`. -/
def totalVariants (cfg : Config) (targets : Option BuildTargets)
    (environments : List String) : Nat :=
  if environments.isEmpty then
    (globalExtensions cfg).length + cfg.build.combos.length
  else
    (environments.map (envVariantCount cfg targets)).sum

/-- Build one combination from a combo name: look the combo up and expand
it, or fail with `ComboNotFound` naming the unknown combo and the list of
valid ones. -/
def comboTarget (cfg : Config) (env : Option String) (dir : String)
    (combo_name : String) : Except BuildError BuildCombination :=
  match lookupAssoc cfg.build.combos combo_name with
  | some combo_extensions =>
      Except.ok ⟨env, combo_extensions, [combo_name], dir⟩
  | none => Except.error (BuildError.comboNotFound combo_name (comboKeys cfg))

/-- Error-propagating map over a list (the Rust loop with the `?`
operator: stops at the first error). -/
def mapME {α β : Type} (f : α → Except BuildError β) : List α → Except BuildError (List β)
  | [] => Except.ok []
  | a :: rest =>
      match f a with
      | Except.error e => Except.error e
      | Except.ok b =>
          match mapME f rest with
          | Except.error e => Except.error e
          | Except.ok bs => Except.ok (b :: bs)

/-- The single-environment arm (`(1, _) if total_variants > 0`) of the
match in `resolve_legacy_combinations_with_targets`. -/
def singleEnvTargets (cfg : Config) (targets : Option BuildTargets) (env : String) :
    Except BuildError (List BuildCombination) :=
  let ec := effConfig cfg targets env
  let env_extensions := ec.1
  let env_combo_names := ec.2.1
  let env_skip_base := ec.2.2
  let env_total_variants := env_extensions.length + env_combo_names.length
  if env_total_variants > 1 || !env_skip_base then
    let baseL : List BuildCombination :=
      if !env_skip_base then [⟨some env, [], [], "base"⟩] else []
    let extL : List BuildCombination :=
      env_extensions.map fun ext => ⟨some env, [ext], [], ext⟩
    match mapME (fun c => comboTarget cfg (some env) c c) env_combo_names with
    | Except.error e => Except.error e
    | Except.ok comboL => Except.ok (baseL ++ extL ++ comboL)
  else
    if env_extensions.length = 1 then
      Except.ok [⟨some env, env_extensions, [], ""⟩]
    else if env_combo_names.length = 1 then
      match comboTarget cfg (some env) "" env_combo_names.headI with
      | Except.error e => Except.error e
      | Except.ok t => Except.ok [t]
    else Except.ok []

/-- The per-environment body of the catch-all arm of the match in
`resolve_legacy_combinations_with_targets` (reached for two or more
environments with variants). -/
def perEnvTargets (cfg : Config) (targets : Option BuildTargets) (numEnvs : Nat)
    (env : String) : Except BuildError (List BuildCombination) :=
  let ec := effConfig cfg targets env
  let env_extensions := ec.1
  let env_combo_names := ec.2.1
  let env_skip_base := ec.2.2
  let env_total_variants := env_extensions.length + env_combo_names.length
  if numEnvs > 1 then
    if env_total_variants > 1 || !env_skip_base then
      let baseL : List BuildCombination :=
        if !env_skip_base then [⟨some env, [], [], env ++ "/base"⟩] else []
      let extL : List BuildCombination :=
        env_extensions.map fun ext => ⟨some env, [ext], [], env ++ "/" ++ ext⟩
      match mapME (fun c => comboTarget cfg (some env) (env ++ "/" ++ c) c)
          env_combo_names with
      | Except.error e => Except.error e
      | Except.ok comboL => Except.ok (baseL ++ extL ++ comboL)
    else
      if env_extensions.length = 1 then
        Except.ok [⟨some env, env_extensions, [], env⟩]
      else if env_combo_names.length = 1 then
        match comboTarget cfg (some env) env env_combo_names.headI with
        | Except.error e => Except.error e
        | Except.ok t => Except.ok [t]
      else Except.ok []
  else
    if env_total_variants = 0 then
      Except.ok [⟨some env, [], [], env⟩]
    else
      Except.ok []

/-- The extension-only combinations appended when there are zero
environments. -/
def zeroEnvTargets (cfg : Config) (total_variants : Nat) : List BuildCombination :=
  let should_create_subfolders := total_variants > 1
  let extL : List BuildCombination :=
    (globalExtensions cfg).map fun ext =>
      ⟨none, [ext], [], if should_create_subfolders then ext else ""⟩
  let comboL : List BuildCombination :=
    cfg.build.combos.map fun ce =>
      ⟨none, ce.2, [ce.1], if should_create_subfolders then ce.1 else ""⟩
  extL ++ comboL

/-- Function `resolve_legacy_combinations_with_targets` from `src/build.rs`. -/
def resolve_legacy_combinations_with_targets (cfg : Config)
    (targets : Option BuildTargets) : Except BuildError (List BuildCombination) :=
  let environments := get_environments_list cfg
  let num_envs := environments.length
  let total_variants := totalVariants cfg targets environments
  let main : Except BuildError (List BuildCombination) :=
    if num_envs = 0 ∧ total_variants = 0 then
      Except.ok [⟨none, [], [], ""⟩]
    else if num_envs = 1 ∧ total_variants > 0 then
      singleEnvTargets cfg targets environments.headI
    else if total_variants = 0 ∧ num_envs ≥ 1 then
      Except.ok (environments.map fun env => ⟨some env, [], [], env⟩)
    else
      match mapME (perEnvTargets cfg targets num_envs) environments with
      | Except.error e => Except.error e
      | Except.ok ls => Except.ok ls.flatten
  match main with
  | Except.error e => Except.error e
  | Except.ok combinations =>
      if num_envs = 0 then
        Except.ok (combinations ++ zeroEnvTargets cfg total_variants)
      else
        Except.ok combinations

/-- Function `is_using_new_environments_api` from `src/config.rs`. -/
def is_using_new_environments_api (cfg : Config) : Bool :=
  cfg.build.environments_config.isSome

/-- Function `resolve_new_api_combinations` from `src/build.rs`: convert the new
environments table into a legacy targets table and delegate. -/
def resolve_new_api_combinations (cfg : Config) :
    Except BuildError (List BuildCombination) :=
  match cfg.build.environments_config with
  | some ec =>
      resolve_legacy_combinations_with_targets cfg (some ⟨ec.environment_configs⟩)
  | none => Except.ok []

/-- Function `determine_build_combinations` from `src/build.rs`. -/
def determine_build_combinations (cfg : Config) :
    Except BuildError (List BuildCombination) :=
  let inner :=
    if is_using_new_environments_api cfg then
      resolve_new_api_combinations cfg
    else
      match cfg.build.targets with
      | some ts => resolve_legacy_combinations_with_targets cfg (some ts)
      | none => resolve_legacy_combinations_with_targets cfg none
  match inner with
  | Except.error e => Except.error e
  | Except.ok combinations =>
      if combinations.isEmpty then Except.error BuildError.noCombinations
      else Except.ok combinations

/-- Function `execute_build` from `src/build.rs`, abstracted over the filesystem
state and the destructive build step (`create_build_structure`, which
begins by cleaning the build root): planning runs first and an error
returns before the build step touches the state. -/
def execute_build {FS : Type} (cfg : Config)
    (create_build_structure : List BuildCombination → FS → FS) (fs : FS) :
    Except BuildError Unit × FS :=
  match determine_build_combinations cfg with
  | Except.error e => (Except.error e, fs)
  | Except.ok combinations =>
      if combinations.isEmpty then (Except.error BuildError.noCombinations, fs)
      else (Except.ok (), create_build_structure combinations fs)

/-- A configuration with exactly one environment, zero extensions, zero
combos, no per-environment targets, and skip-base unset. -/
def c2ConfigOneEnv : Config :=
  ⟨⟨some ["dev"], none, [], none, none, false⟩⟩

/-- A configuration with exactly two environments and zero variants. -/
def c2ConfigTwoEnvs : Config :=
  ⟨⟨some ["dev", "prod"], none, [], none, none, false⟩⟩

/-- Counterexample to C2 as stated: for one environment with zero variants
and skip-base unset, the planner emits one target whose `output_dir` is the
environment name `"dev"`, not the empty string. -/
theorem c2_counterexample :
    determine_build_combinations c2ConfigOneEnv =
      Except.ok [⟨some "dev", [], [], "dev"⟩]
    ∧ "dev" ≠ "" := by
  constructor
  · rfl
  · decide

/-- C2 (amended): for a configuration whose environment list is nonempty
and which has zero extensions, zero combos and no per-environment targets,
the planner emits exactly one target per environment whose `output_dir`
equals the environment name with no base suffix (for a single environment
the build step then writes that target directly into the build root). -/
theorem c2_planner_env_only (cfg : Config) (es : List String)
    (h1 : cfg.build.environments = some es) (h2 : es ≠ [])
    (h3 : cfg.build.extensions = none) (h4 : cfg.build.combos = [])
    (h5 : cfg.build.targets = none) (h6 : cfg.build.environments_config = none) :
    determine_build_combinations cfg =
      Except.ok (es.map fun env => ⟨some env, [], [], env⟩) := by
  have hel : get_environments_list cfg = es := by
    simp [get_environments_list, h6, h1]
  have heff : ∀ e, envVariantCount cfg none e = 0 := by
    intro e
    simp [envVariantCount, effConfig, envSpecificConfig, get_environment_config,
      h6, h5, globalExtensions, h3, comboKeys, h4]
  have hmap0 : es.map (envVariantCount cfg none) = es.map (fun _ => 0) :=
    List.map_congr_left fun e _ => heff e
  have htot : totalVariants cfg none es = 0 := by
    rw [totalVariants]
    have : es.isEmpty = false := by
      cases es with
      | nil => exact absurd rfl h2
      | cons a l => rfl
    rw [this]
    simp [hmap0]
  have hlen : es.length ≠ 0 := fun hh => h2 (List.length_eq_zero.mp hh)
  have hmain : resolve_legacy_combinations_with_targets cfg none =
      Except.ok (es.map fun env => ⟨some env, [], [], env⟩) := by
    rw [resolve_legacy_combinations_with_targets]
    simp only [hel, htot]
    have hc1 : ¬(es.length = 0 ∧ (0 : Nat) = 0) := fun hh => hlen hh.1
    have hc2 : ¬(es.length = 1 ∧ (0 : Nat) > 0) := fun hh => by omega
    have hc3 : (0 : Nat) = 0 ∧ es.length ≥ 1 := ⟨rfl, Nat.one_le_iff_ne_zero.mpr hlen⟩
    simp [hc1, hc2, hc3, hlen]
  rw [determine_build_combinations]
  have hnew : is_using_new_environments_api cfg = false := by
    simp [is_using_new_environments_api, h6]
  simp only [hnew, Bool.false_eq_true, if_false, h5, hmain]
  have : (es.map fun env => (⟨some env, [], [], env⟩ : BuildCombination)).isEmpty
      = false := by
    cases es with
    | nil => exact absurd rfl h2
    | cons a l => rfl
  rw [this]
  rfl

/-- Witness for C2 (amended) at the two concrete configurations of the
collapse law. -/
theorem c2_planner_env_only_witness :
    determine_build_combinations c2ConfigTwoEnvs =
      Except.ok [⟨some "dev", [], [], "dev"⟩, ⟨some "prod", [], [], "prod"⟩] :=
  c2_planner_env_only c2ConfigTwoEnvs ["dev", "prod"] rfl (by decide) rfl rfl rfl rfl

/-! ### Extension resolution (`resolve_all_extensions` in `src/build.rs`,
`resolve_combo_extensions` in `src/config.rs`) -/

/-- One step of the push-if-absent pattern
(`if !list.contains(ext) { list.push(ext) }`). -/
def dedupInsert (acc : List String) (x : String) : List String :=
  if x ∈ acc then acc else acc ++ [x]

/-- Fold a whole list through `dedupInsert` (first-seen order is kept,
later duplicates are dropped). -/
def dedupInto (acc : List String) (l : List String) : List String :=
  l.foldl dedupInsert acc

/-- The elements of `l` not yet present, in first-seen order (the suffix
that `dedupInto` appends). -/
def filterNew (acc : List String) : List String → List String
  | [] => []
  | x :: rest =>
      if x ∈ acc then filterNew acc rest
      else x :: filterNew (acc ++ [x]) rest

theorem dedupInto_nil (acc : List String) : dedupInto acc [] = acc := rfl

theorem dedupInto_cons (acc : List String) (x : String) (l : List String) :
    dedupInto acc (x :: l) = dedupInto (dedupInsert acc x) l := rfl

theorem dedupInto_append (acc : List String) (l1 l2 : List String) :
    dedupInto acc (l1 ++ l2) = dedupInto (dedupInto acc l1) l2 :=
  List.foldl_append _ _ _ _

theorem dedupInto_eq_append_filterNew (l acc : List String) :
    dedupInto acc l = acc ++ filterNew acc l := by
  induction l generalizing acc with
  | nil => simp [dedupInto, filterNew]
  | cons x rest ih =>
      rw [dedupInto_cons]
      by_cases hx : x ∈ acc
      · simp [dedupInsert, hx, filterNew, ih]
      · simp only [dedupInsert, hx, if_neg, filterNew, ite_false]
        rw [ih]
        simp

theorem filterNew_congr (B A1 A2 : List String) (h : ∀ x, x ∈ A1 ↔ x ∈ A2) :
    filterNew A1 B = filterNew A2 B := by
  induction B generalizing A1 A2 with
  | nil => rfl
  | cons b rest ih =>
      by_cases hb : b ∈ A1
      · simp [filterNew, hb, (h b).mp hb, ih A1 A2 h]
      · have hb2 : b ∉ A2 := fun hh => hb ((h b).mpr hh)
        simp only [filterNew, hb, hb2, ite_false]
        have hmem : ∀ x, x ∈ A1 ++ [b] ↔ x ∈ A2 ++ [b] := by
          intro x
          simp [h x]
        rw [ih (A1 ++ [b]) (A2 ++ [b]) hmem]

theorem filterNew_nil_of_subset (C A : List String) (h : ∀ x ∈ C, x ∈ A) :
    filterNew A C = [] := by
  induction C generalizing A with
  | nil => rfl
  | cons c rest ih =>
      have hc : c ∈ A := h c (List.mem_cons_self _ _)
      simp only [filterNew, hc, if_true]
      exact ih A fun x hx => h x (List.mem_cons_of_mem _ hx)

theorem filterNew_append (A C D : List String) :
    filterNew A (C ++ D) = filterNew A C ++ filterNew (A ++ filterNew A C) D := by
  induction C generalizing A with
  | nil =>
      simp only [List.nil_append, filterNew]
      exact filterNew_congr D A (A ++ []) (by intro x; simp)
  | cons c rest ih =>
      by_cases hc : c ∈ A
      · simp [filterNew, hc, ih]
      · simp only [List.cons_append, filterNew, hc, ite_false]
        rw [show rest.append D = rest ++ D from rfl, ih (A ++ [c])]
        rw [List.cons_inj_right, List.append_right_inj]
        exact filterNew_congr D _ _ (by intro x; simp)

theorem filterNew_filterNew (B A C : List String) (h : ∀ x ∈ C, x ∈ A) :
    filterNew A (filterNew C B) = filterNew A B := by
  induction B generalizing A C with
  | nil => rfl
  | cons b rest ih =>
      by_cases hbC : b ∈ C
      · have hbA : b ∈ A := h b hbC
        simp [filterNew, hbC, hbA, ih A C h]
      · simp only [filterNew, hbC, ite_false]
        by_cases hbA : b ∈ A
        · simp only [filterNew, hbA, if_true]
          exact ih A (C ++ [b]) fun x hx => by
            rcases List.mem_append.mp hx with h1 | h1
            · exact h x h1
            · rw [List.mem_singleton.mp h1]; exact hbA
        · simp only [filterNew, hbA, ite_false]
          rw [ih (A ++ [b]) (C ++ [b]) fun x hx => by
            rcases List.mem_append.mp hx with h1 | h1
            · exact List.mem_append.mpr (Or.inl (h x h1))
            · exact List.mem_append.mpr (Or.inr h1)]

/-- Collapsing a pre-deduplication: inserting an already-deduplicated list
is the same as inserting the original list. -/
theorem dedupInto_dedupInto (A B : List String) :
    dedupInto A (dedupInto [] B) = dedupInto A B := by
  rw [dedupInto_eq_append_filterNew B [], List.nil_append,
    dedupInto_eq_append_filterNew (filterNew [] B) A,
    dedupInto_eq_append_filterNew B A,
    filterNew_filterNew B A [] (by intro x hx; cases hx)]

theorem dedupInsert_nodup (acc : List String) (x : String) (h : acc.Nodup) :
    (dedupInsert acc x).Nodup := by
  by_cases hx : x ∈ acc
  · simp [dedupInsert, hx, h]
  · simp only [dedupInsert, hx, ite_false]
    exact List.nodup_append.mpr ⟨h, List.nodup_singleton x,
      fun a ha hb => hx (by rwa [List.mem_singleton.mp hb] at ha)⟩

theorem dedupInto_nodup (l acc : List String) (h : acc.Nodup) :
    (dedupInto acc l).Nodup := by
  induction l generalizing acc with
  | nil => exact h
  | cons x rest ih => exact ih (dedupInsert acc x) (dedupInsert_nodup acc x h)

/-- The loop of `resolve_combo_extensions` from `src/config.rs`. -/
def resolve_combo_extensions_go (cfg : Config) (acc : List String) :
    List String → Except BuildError (List String)
  | [] => Except.ok acc
  | combo_name :: rest =>
      match lookupAssoc cfg.build.combos combo_name with
      | some extensions =>
          resolve_combo_extensions_go cfg (dedupInto acc extensions) rest
      | none => Except.error (BuildError.comboNotFound combo_name (comboKeys cfg))

/-- Function `resolve_combo_extensions` from `src/config.rs`: flatten combo names
into a duplicate-free extension list. -/
def resolve_combo_extensions (cfg : Config) (combo_names : List String) :
    Except BuildError (List String) :=
  resolve_combo_extensions_go cfg [] combo_names

/-- Function `resolve_all_extensions` from `src/build.rs`: direct extensions first
(first-seen deduplicated), then combo-expanded extensions not already
present. -/
def resolve_all_extensions (cfg : Config) (direct_extensions : List String)
    (combo_names : List String) : Except BuildError (List String) :=
  let all_extensions := dedupInto [] direct_extensions
  if combo_names.isEmpty then Except.ok all_extensions
  else
    match resolve_combo_extensions cfg combo_names with
    | Except.error e => Except.error e
    | Except.ok combo_extensions =>
        Except.ok (dedupInto all_extensions combo_extensions)

/-- The concatenation of the extension lists of the given combos, in
order. -/
def comboExtsConcat (cfg : Config) : List String → List String
  | [] => []
  | combo_name :: rest =>
      (lookupAssoc cfg.build.combos combo_name).getD [] ++ comboExtsConcat cfg rest

theorem resolve_combo_extensions_go_ok (cfg : Config) (cn : List String)
    (acc out : List String) (h : resolve_combo_extensions_go cfg acc cn = Except.ok out) :
    out = dedupInto acc (comboExtsConcat cfg cn) := by
  induction cn generalizing acc with
  | nil =>
      rw [resolve_combo_extensions_go] at h
      injection h with h2
      rw [← h2, comboExtsConcat, dedupInto_nil]
  | cons c rest ih =>
      rw [resolve_combo_extensions_go] at h
      cases hc : lookupAssoc cfg.build.combos c with
      | some xs =>
          rw [hc] at h
          rw [comboExtsConcat, hc, Option.getD_some, dedupInto_append]
          exact ih (dedupInto acc xs) h
      | none => rw [hc] at h; cases h

/-- C9: when extension resolution succeeds, the result is duplicate-free,
and equals the first-occurrence deduplication of the direct extension list
followed by the concatenated combo expansions: direct extensions first in
their given order, then combo-expanded extensions in first-seen order,
each name exactly once. -/
theorem c9_resolve_all_extensions (cfg : Config) (direct_extensions combo_names l :
    List String) (h : resolve_all_extensions cfg direct_extensions combo_names =
      Except.ok l) :
    l.Nodup ∧ l = dedupInto [] (direct_extensions ++ comboExtsConcat cfg combo_names) := by
  rw [resolve_all_extensions] at h
  by_cases hcn : combo_names.isEmpty
  · rw [if_pos hcn] at h
    injection h with h2
    have hnil : combo_names = [] := List.isEmpty_iff.mp hcn
    subst hnil
    rw [← h2]
    refine ⟨dedupInto_nodup _ _ List.nodup_nil, ?_⟩
    rw [comboExtsConcat, List.append_nil]
  · rw [if_neg hcn] at h
    cases hres : resolve_combo_extensions cfg combo_names with
    | error e => rw [hres] at h; cases h
    | ok cx =>
        rw [hres] at h
        injection h with h2
        have hcx : cx = dedupInto [] (comboExtsConcat cfg combo_names) :=
          resolve_combo_extensions_go_ok cfg combo_names [] cx hres
        rw [← h2, hcx, dedupInto_dedupInto, dedupInto_append]
        exact ⟨dedupInto_nodup _ _ (dedupInto_nodup _ _ List.nodup_nil), rfl⟩

/-- A configuration registering the combo `security = [oidc, guard]`. -/
def c9Config : Config :=
  ⟨⟨none, some ["oidc"], [("security", ["oidc", "guard"])], none, none, false⟩⟩

/-- Witness for C9: combo `security = [oidc, guard]` together with direct
extension `oidc` resolves to exactly `[oidc, guard]`. -/
theorem c9_resolve_all_extensions_witness :
    (["oidc", "guard"] : List String).Nodup ∧
    (["oidc", "guard"] : List String) =
      dedupInto [] (["oidc"] ++ comboExtsConcat c9Config ["security"]) :=
  c9_resolve_all_extensions c9Config ["oidc"] ["security"] ["oidc", "guard"] rfl

/-! ### Planning failures (C6) -/

theorem comboTarget_error (cfg : Config) (env : Option String) (dir c : String)
    (e : BuildError) (h : comboTarget cfg env dir c = Except.error e) :
    e = BuildError.comboNotFound c (comboKeys cfg) ∧
      lookupAssoc cfg.build.combos c = none := by
  rw [comboTarget] at h
  cases hc : lookupAssoc cfg.build.combos c with
  | some xs => rw [hc] at h; cases h
  | none =>
      rw [hc] at h
      injection h with h2
      exact ⟨h2.symm, rfl⟩

theorem isEmpty_false_of_eq_false {l : List BuildCombination} (h : l.isEmpty = false) :
    l ≠ [] := by
  intro hl
  rw [hl] at h
  cases h

theorem mapME_error {α β : Type} (f : α → Except BuildError β) (l : List α)
    (e : BuildError) (h : mapME f l = Except.error e) :
    ∃ a, a ∈ l ∧ f a = Except.error e := by
  induction l with
  | nil => rw [mapME] at h; cases h
  | cons a rest ih =>
      rw [mapME] at h
      cases hf : f a with
      | error e2 =>
          rw [hf] at h
          injection h with h2
          exact ⟨a, List.mem_cons_self _ _, by rw [hf, h2]⟩
      | ok b =>
          rw [hf] at h
          cases hr : mapME f rest with
          | error e2 =>
              rw [hr] at h
              injection h with h2
              obtain ⟨x, hx, hfx⟩ := ih (by rw [hr, h2])
              exact ⟨x, List.mem_cons_of_mem _ hx, hfx⟩
          | ok bs => rw [hr] at h; cases h

theorem singleEnvTargets_error (cfg : Config) (t : Option BuildTargets) (env : String)
    (e : BuildError) (h : singleEnvTargets cfg t env = Except.error e) :
    ∃ c, e = BuildError.comboNotFound c (comboKeys cfg) ∧
      lookupAssoc cfg.build.combos c = none := by
  simp only [singleEnvTargets] at h
  split at h
  · split at h
    · rename_i e2 he
      injection h with h2
      obtain ⟨c, _, hfc⟩ := mapME_error _ _ e (by rw [he, h2])
      exact ⟨c, comboTarget_error cfg _ _ c e hfc⟩
    · cases h
  · split at h
    · cases h
    · split at h
      · split at h
        · rename_i e2 he
          injection h with h2
          exact ⟨_, comboTarget_error cfg _ _ _ e (by rw [he, h2])⟩
        · cases h
      · cases h

theorem perEnvTargets_error (cfg : Config) (t : Option BuildTargets) (numEnvs : Nat)
    (env : String) (e : BuildError)
    (h : perEnvTargets cfg t numEnvs env = Except.error e) :
    ∃ c, e = BuildError.comboNotFound c (comboKeys cfg) ∧
      lookupAssoc cfg.build.combos c = none := by
  simp only [perEnvTargets] at h
  split at h
  · split at h
    · split at h
      · rename_i e2 he
        injection h with h2
        obtain ⟨c, _, hfc⟩ := mapME_error _ _ e (by rw [he, h2])
        exact ⟨c, comboTarget_error cfg _ _ c e hfc⟩
      · cases h
    · split at h
      · cases h
      · split at h
        · split at h
          · rename_i e2 he
            injection h with h2
            exact ⟨_, comboTarget_error cfg _ _ _ e (by rw [he, h2])⟩
          · cases h
        · cases h
  · split at h
    · cases h
    · cases h

theorem resolve_legacy_error (cfg : Config) (t : Option BuildTargets) (e : BuildError)
    (h : resolve_legacy_combinations_with_targets cfg t = Except.error e) :
    ∃ c, e = BuildError.comboNotFound c (comboKeys cfg) ∧
      lookupAssoc cfg.build.combos c = none := by
  simp only [resolve_legacy_combinations_with_targets] at h
  split at h
  · rename_i e2 he
    injection h with h2
    rw [h2] at he
    split at he
    · cases he
    · split at he
      · exact singleEnvTargets_error cfg t _ e he
      · split at he
        · cases he
        · split at he
          · rename_i e3 he3
            injection he with h3
            obtain ⟨env, _, hfe⟩ := mapME_error _ _ e (by rw [he3, h3])
            exact perEnvTargets_error cfg t _ env e hfe
          · cases he
  · split at h
    · cases h
    · cases h

theorem determine_error (cfg : Config) (e : BuildError)
    (h : determine_build_combinations cfg = Except.error e) :
    e = BuildError.noCombinations ∨
      ∃ c, e = BuildError.comboNotFound c (comboKeys cfg) ∧
        lookupAssoc cfg.build.combos c = none := by
  simp only [determine_build_combinations] at h
  split at h
  · rename_i e2 he
    injection h with h2
    rw [h2] at he
    right
    split at he
    · simp only [resolve_new_api_combinations] at he
      split at he
      · exact resolve_legacy_error cfg _ e he
      · cases he
    · split at he
      · exact resolve_legacy_error cfg _ e he
      · exact resolve_legacy_error cfg _ e he
  · split at h
    · injection h with h2
      left
      exact h2.symm
    · cases h

/-- C6: every run either fails during planning — with an error that is the
no-combinations condition or an unresolvable combo reference naming the
unknown combo and the list of registered combos — and returns before the
destructive build step touches the filesystem state, or it proceeds with a
nonempty target list (so an empty planned set can never reach the build
step). -/
theorem c6_planning_failures_abort {FS : Type} (cfg : Config)
    (create_build_structure : List BuildCombination → FS → FS) (fs : FS) :
    (∃ e, determine_build_combinations cfg = Except.error e
      ∧ execute_build cfg create_build_structure fs = (Except.error e, fs)
      ∧ (e = BuildError.noCombinations ∨
          ∃ c, e = BuildError.comboNotFound c (comboKeys cfg)
            ∧ lookupAssoc cfg.build.combos c = none))
    ∨ (∃ l, determine_build_combinations cfg = Except.ok l ∧ l ≠ []
      ∧ execute_build cfg create_build_structure fs =
          (Except.ok (), create_build_structure l fs)) := by
  cases hd : determine_build_combinations cfg with
  | error e =>
      left
      refine ⟨e, rfl, ?_, determine_error cfg e hd⟩
      simp only [execute_build, hd]
  | ok l =>
      right
      have hne : l.isEmpty = false := by
        simp only [determine_build_combinations] at hd
        split at hd
        · cases hd
        · split at hd
          · cases hd
          · rename_i hemp
            injection hd with h2
            have hfalse : ∀ (b : Bool), ¬b = true → b = false := by
              intro b hb
              cases b
              · rfl
              · exact absurd rfl hb
            rw [← h2]
            exact hfalse _ hemp
      refine ⟨l, rfl, isEmpty_false_of_eq_false hne, ?_⟩
      simp only [execute_build, hd, hne]
      rfl

/-! ### Output directory uniqueness (C7) -/

/-- A path component that contains no slash. -/
def slashFree (s : String) : Prop := '/' ∉ s.data

instance (s : String) : Decidable (slashFree s) := by
  unfold slashFree
  infer_instance

theorem string_append_left_cancel (a b c : String) (h : a ++ b = a ++ c) : b = c := by
  apply String.ext
  have h2 := congrArg String.data h
  rw [String.data_append, String.data_append] at h2
  exact List.append_cancel_left h2

theorem char_append_slash_inj (a : List Char) :
    ∀ (c b d : List Char), '/' ∉ a → '/' ∉ c →
    a ++ '/' :: b = c ++ '/' :: d → a = c ∧ b = d := by
  induction a with
  | nil =>
      intro c b d _ hc h
      cases c with
      | nil =>
          rw [List.nil_append, List.nil_append] at h
          injection h with _ h2
          exact ⟨rfl, h2⟩
      | cons x c2 =>
          rw [List.nil_append, List.cons_append] at h
          injection h with h1 _
          exact absurd (h1 ▸ List.mem_cons_self x c2) hc
  | cons y a2 ih =>
      intro c b d ha hc h
      cases c with
      | nil =>
          rw [List.nil_append, List.cons_append] at h
          injection h with h1 _
          exact absurd (h1.symm ▸ List.mem_cons_self y a2) ha
      | cons x c2 =>
          rw [List.cons_append, List.cons_append] at h
          injection h with h1 h2
          have ha2 : '/' ∉ a2 := fun hh => ha (List.mem_cons_of_mem _ hh)
          have hc2 : '/' ∉ c2 := fun hh => hc (List.mem_cons_of_mem _ hh)
          obtain ⟨he, hb⟩ := ih c2 b d ha2 hc2 h2
          exact ⟨by rw [h1, he], hb⟩

theorem string_append_slash_inj (a b c d : String) (ha : slashFree a)
    (hc : slashFree c) (h : a ++ "/" ++ b = c ++ "/" ++ d) : a = c ∧ b = d := by
  have h2 := congrArg String.data h
  rw [String.data_append, String.data_append, String.data_append,
    String.data_append] at h2
  have h3 : a.data ++ '/' :: b.data = c.data ++ '/' :: d.data := by
    simpa using h2
  obtain ⟨he, hb⟩ := char_append_slash_inj a.data c.data b.data d.data ha hc h3
  exact ⟨String.ext he, String.ext hb⟩

theorem slashFree_ne_slashed (a c d : String) (ha : slashFree a) :
    a ≠ c ++ "/" ++ d := by
  intro h
  apply ha
  rw [h, String.data_append, String.data_append]
  refine List.mem_append.mpr (Or.inl (List.mem_append.mpr (Or.inr ?_)))
  show '/' ∈ "/".data
  simp

/-- Two output directories built from different slash-free environment
names are distinct, whether collapsed (the bare environment name) or
namespaced (`env/…`). -/
theorem shape_ne (e e2 d d2 : String) (he : slashFree e) (he2 : slashFree e2)
    (hne : e ≠ e2) (hd : d = e ∨ ∃ x, d = e ++ "/" ++ x)
    (hd2 : d2 = e2 ∨ ∃ x, d2 = e2 ++ "/" ++ x) : d ≠ d2 := by
  rcases hd with hde | ⟨x, hde⟩ <;> rcases hd2 with hde2 | ⟨x2, hde2⟩ <;>
    rw [hde, hde2]
  · exact hne
  · exact slashFree_ne_slashed e e2 x2 he
  · exact fun h => slashFree_ne_slashed e2 e x he2 h.symm
  · intro h
    exact hne (string_append_slash_inj e x e2 x2 he he2 h).1

theorem string_slash_injective (e : String) :
    Function.Injective (fun x => e ++ "/" ++ x) := by
  intro x y h
  exact string_append_left_cancel (e ++ "/") x y h

/-- Helper `comboTarget` succeeds exactly on registered combos, and the produced
combination carries the requested output directory. -/
theorem comboTarget_ok (cfg : Config) (env : Option String) (dir c : String)
    (t : BuildCombination) (h : comboTarget cfg env dir c = Except.ok t) :
    t.output_dir = dir := by
  rw [comboTarget] at h
  cases hc : lookupAssoc cfg.build.combos c with
  | some xs =>
      rw [hc] at h
      injection h with h2
      rw [← h2]
  | none => rw [hc] at h; cases h

theorem mapME_comboTarget_dirs (cfg : Config) (env : Option String)
    (pre : String → String) (ce : List String) (L : List BuildCombination)
    (h : mapME (fun c => comboTarget cfg env (pre c) c) ce = Except.ok L) :
    L.map BuildCombination.output_dir = ce.map pre := by
  induction ce generalizing L with
  | nil =>
      rw [mapME] at h
      injection h with h2
      rw [← h2]
      rfl
  | cons c rest ih =>
      rw [mapME] at h
      cases hf : comboTarget cfg env (pre c) c with
      | error e => rw [hf] at h; cases h
      | ok t =>
          rw [hf] at h
          cases hr : mapME (fun c => comboTarget cfg env (pre c) c) rest with
          | error e => rw [hr] at h; cases h
          | ok bs =>
              rw [hr] at h
              injection h with h2
              rw [← h2, List.map_cons, List.map_cons,
                comboTarget_ok cfg env (pre c) c t hf, ih bs hr]

/-- A configuration in which an extension and a combo share the name `x`:
the planner accepts it and produces two targets with the same output
directory. -/
def c7Config : Config :=
  ⟨⟨none, some ["x"], [("x", ["y"])], none, none, false⟩⟩

/-- Counterexample to C7 as stated: the planner accepts `c7Config` and
emits two targets (one for the extension `x`, one for the combo `x`) that
share the output directory `"x"`. -/
theorem c7_counterexample :
    resolve_legacy_combinations_with_targets c7Config none =
      Except.ok [⟨none, ["x"], [], "x"⟩, ⟨none, ["y"], ["x"], "x"⟩]
    ∧ ¬ (([⟨none, ["x"], [], "x"⟩, ⟨none, ["y"], ["x"], "x"⟩] :
          List BuildCombination).map BuildCombination.output_dir).Nodup := by
  constructor
  · rfl
  · intro h
    simp [List.nodup_cons] at h

theorem append_slash_base (e : String) : e ++ "/base" = e ++ "/" ++ "base" := by
  rw [String.append_assoc]
  rfl

theorem singleEnvTargets_dirs_nodup (cfg : Config) (t : Option BuildTargets)
    (e : String) (L : List BuildCombination)
    (h3 : ((effConfig cfg t e).1 ++ (effConfig cfg t e).2.1).Nodup)
    (h4 : "base" ∉ (effConfig cfg t e).1 ++ (effConfig cfg t e).2.1)
    (h : singleEnvTargets cfg t e = Except.ok L) :
    (L.map BuildCombination.output_dir).Nodup := by
  simp only [singleEnvTargets] at h
  split at h
  · split at h
    · cases h
    · rename_i comboL he
      injection h with h2
      rw [← h2, List.map_append, List.map_append]
      have hcombo : comboL.map BuildCombination.output_dir =
          (effConfig cfg t e).2.1 := by
        have hd := mapME_comboTarget_dirs cfg (some e) (fun c => c)
          (effConfig cfg t e).2.1 comboL he
        rw [hd, List.map_id']
      have hext : (List.map (fun ext =>
            ({ environment := some e, extensions := [ext], combo_names := [],
               output_dir := ext } : BuildCombination)) (effConfig cfg t e).1).map
          BuildCombination.output_dir = (effConfig cfg t e).1 := by
        rw [List.map_map]
        exact List.map_id' _
      rw [hcombo, hext]
      by_cases hsb : (!(effConfig cfg t e).2.2) = true
      · rw [if_pos hsb]
        show ("base" :: ((effConfig cfg t e).1 ++ (effConfig cfg t e).2.1)).Nodup
        exact List.nodup_cons.mpr ⟨h4, h3⟩
      · rw [if_neg hsb]
        rw [List.map_nil, List.nil_append]
        exact h3
  · split at h
    · injection h with h2
      rw [← h2]
      simp
    · split at h
      · split at h
        · cases h
        · injection h with h2
          rw [← h2]
          simp
      · injection h with h2
        rw [← h2]
        simp

theorem perEnvTargets_dirs_nodup (cfg : Config) (t : Option BuildTargets) (n : Nat)
    (e : String) (L : List BuildCombination)
    (h3 : ((effConfig cfg t e).1 ++ (effConfig cfg t e).2.1).Nodup)
    (h4 : "base" ∉ (effConfig cfg t e).1 ++ (effConfig cfg t e).2.1)
    (h : perEnvTargets cfg t n e = Except.ok L) :
    (L.map BuildCombination.output_dir).Nodup := by
  simp only [perEnvTargets] at h
  split at h
  · split at h
    · split at h
      · cases h
      · rename_i comboL he
        injection h with h2
        rw [← h2, List.map_append, List.map_append]
        have hcombo : comboL.map BuildCombination.output_dir =
            (effConfig cfg t e).2.1.map (fun c => e ++ "/" ++ c) :=
          mapME_comboTarget_dirs cfg (some e) (fun c => e ++ "/" ++ c)
            (effConfig cfg t e).2.1 comboL he
        have hext : (List.map (fun ext =>
              ({ environment := some e, extensions := [ext], combo_names := [],
                 output_dir := e ++ "/" ++ ext } : BuildCombination))
              (effConfig cfg t e).1).map BuildCombination.output_dir =
            (effConfig cfg t e).1.map (fun c => e ++ "/" ++ c) := by
          rw [List.map_map]
          rfl
        rw [hcombo, hext]
        by_cases hsb : (!(effConfig cfg t e).2.2) = true
        · rw [if_pos hsb]
          show ((e ++ "/base") ::
              (List.map (fun c => e ++ "/" ++ c) (effConfig cfg t e).1 ++
                List.map (fun c => e ++ "/" ++ c) (effConfig cfg t e).2.1)).Nodup
          rw [append_slash_base, ← List.map_append]
          have hcons : (e ++ "/" ++ "base") ::
              List.map (fun c => e ++ "/" ++ c)
                ((effConfig cfg t e).1 ++ (effConfig cfg t e).2.1) =
              List.map (fun c => e ++ "/" ++ c)
                ("base" :: ((effConfig cfg t e).1 ++ (effConfig cfg t e).2.1)) := by
            rw [List.map_cons]
          rw [hcons]
          refine List.Nodup.map (string_slash_injective e) ?_
          rw [List.nodup_cons]
          exact ⟨h4, h3⟩
        · rw [if_neg hsb]
          rw [List.map_nil, List.nil_append, ← List.map_append]
          exact List.Nodup.map (string_slash_injective e) h3
    · split at h
      · injection h with h2
        rw [← h2]
        simp
      · split at h
        · split at h
          · cases h
          · injection h with h2
            rw [← h2]
            simp
        · injection h with h2
          rw [← h2]
          simp
  · split at h
    · injection h with h2
      rw [← h2]
      simp
    · injection h with h2
      rw [← h2]
      simp

theorem perEnvTargets_dirs_shape (cfg : Config) (t : Option BuildTargets) (n : Nat)
    (e : String) (L : List BuildCombination)
    (h : perEnvTargets cfg t n e = Except.ok L) :
    ∀ d ∈ L.map BuildCombination.output_dir, d = e ∨ ∃ x, d = e ++ "/" ++ x := by
  simp only [perEnvTargets] at h
  split at h
  · split at h
    · split at h
      · cases h
      · rename_i comboL he
        injection h with h2
        rw [← h2]
        have hcombo : comboL.map BuildCombination.output_dir =
            (effConfig cfg t e).2.1.map (fun c => e ++ "/" ++ c) :=
          mapME_comboTarget_dirs cfg (some e) (fun c => e ++ "/" ++ c)
            (effConfig cfg t e).2.1 comboL he
        intro d hd
        rw [List.map_append, List.map_append, hcombo, List.map_map] at hd
        rcases List.mem_append.mp hd with hd1 | hd2
        · rcases List.mem_append.mp hd1 with hd3 | hd4
          · right
            refine ⟨"base", ?_⟩
            by_cases hsb : (!(effConfig cfg t e).2.2) = true
            · rw [if_pos hsb] at hd3
              have hde : d = e ++ "/base" := by simpa using hd3
              rw [hde, append_slash_base]
            · rw [if_neg hsb] at hd3
              simp at hd3
          · right
            obtain ⟨x, _, hx⟩ := List.mem_map.mp hd4
            exact ⟨x, hx.symm⟩
        · right
          obtain ⟨x, _, hx⟩ := List.mem_map.mp hd2
          exact ⟨x, hx.symm⟩
    · split at h
      · injection h with h2
        rw [← h2]
        intro d hd
        left
        simpa using hd
      · split at h
        · split at h
          · cases h
          · rename_i tc hc
            injection h with h2
            rw [← h2]
            intro d hd
            left
            have hdt : d = tc.output_dir := by simpa using hd
            rw [hdt]
            exact comboTarget_ok cfg (some e) e _ tc hc
        · injection h with h2
          rw [← h2]
          intro d hd
          simp at hd
  · split at h
    · injection h with h2
      rw [← h2]
      intro d hd
      left
      simpa using hd
    · injection h with h2
      rw [← h2]
      intro d hd
      simp at hd

theorem perEnv_dirs_flatten_shape (cfg : Config) (t : Option BuildTargets) (n : Nat) :
    ∀ (es : List String) (ls : List (List BuildCombination)),
    mapME (perEnvTargets cfg t n) es = Except.ok ls →
    ∀ d ∈ (ls.flatten).map BuildCombination.output_dir,
      ∃ e, e ∈ es ∧ (d = e ∨ ∃ x, d = e ++ "/" ++ x) := by
  intro es
  induction es with
  | nil =>
      intro ls h d hd
      rw [mapME] at h
      injection h with h2
      rw [← h2] at hd
      simp at hd
  | cons e rest ih =>
      intro ls h d hd
      rw [mapME] at h
      cases hf : perEnvTargets cfg t n e with
      | error e2 => rw [hf] at h; cases h
      | ok L =>
          rw [hf] at h
          cases hr : mapME (perEnvTargets cfg t n) rest with
          | error e2 => rw [hr] at h; cases h
          | ok ls2 =>
              rw [hr] at h
              injection h with h2
              rw [← h2] at hd
              rw [List.flatten_cons, List.map_append] at hd
              rcases List.mem_append.mp hd with hd1 | hd2
              · exact ⟨e, List.mem_cons_self _ _,
                  perEnvTargets_dirs_shape cfg t n e L hf d hd1⟩
              · obtain ⟨e2, he2, hsh⟩ := ih ls2 hr d hd2
                exact ⟨e2, List.mem_cons_of_mem _ he2, hsh⟩

theorem perEnv_dirs_flatten_nodup (cfg : Config) (t : Option BuildTargets) (n : Nat) :
    ∀ (es : List String) (ls : List (List BuildCombination)),
    mapME (perEnvTargets cfg t n) es = Except.ok ls →
    es.Nodup →
    (∀ e ∈ es, slashFree e) →
    (∀ e ∈ es, ((effConfig cfg t e).1 ++ (effConfig cfg t e).2.1).Nodup) →
    (∀ e ∈ es, "base" ∉ (effConfig cfg t e).1 ++ (effConfig cfg t e).2.1) →
    ((ls.flatten).map BuildCombination.output_dir).Nodup := by
  intro es
  induction es with
  | nil =>
      intro ls h _ _ _ _
      rw [mapME] at h
      injection h with h2
      rw [← h2]
      simp
  | cons e rest ih =>
      intro ls h hnd hsf h3 h4
      rw [mapME] at h
      cases hf : perEnvTargets cfg t n e with
      | error e2 => rw [hf] at h; cases h
      | ok L =>
          rw [hf] at h
          cases hr : mapME (perEnvTargets cfg t n) rest with
          | error e2 => rw [hr] at h; cases h
          | ok ls2 =>
              rw [hr] at h
              injection h with h2
              rw [← h2, List.flatten_cons, List.map_append]
              rw [List.nodup_cons] at hnd
              refine List.nodup_append.mpr
                ⟨perEnvTargets_dirs_nodup cfg t n e L
                    (h3 e (List.mem_cons_self _ _)) (h4 e (List.mem_cons_self _ _)) hf,
                  ih ls2 hr hnd.2
                    (fun x hx => hsf x (List.mem_cons_of_mem _ hx))
                    (fun x hx => h3 x (List.mem_cons_of_mem _ hx))
                    (fun x hx => h4 x (List.mem_cons_of_mem _ hx)), ?_⟩
              intro d hd1 hd2
              obtain ⟨e2, he2, hsh2⟩ := perEnv_dirs_flatten_shape cfg t n rest ls2 hr d hd2
              have hsh1 := perEnvTargets_dirs_shape cfg t n e L hf d hd1
              have hne : e ≠ e2 := fun hh => hnd.1 (hh ▸ he2)
              exact shape_ne e e2 d d
                (hsf e (List.mem_cons_self _ _))
                (hsf e2 (List.mem_cons_of_mem _ he2)) hne hsh1 hsh2 rfl

theorem zeroEnvTargets_dirs_nodup (cfg : Config) (total : Nat)
    (h6 : (globalExtensions cfg ++ comboKeys cfg).Nodup)
    (hlen : (globalExtensions cfg).length + cfg.build.combos.length = total) :
    ((zeroEnvTargets cfg total).map BuildCombination.output_dir).Nodup := by
  by_cases hsub : total > 1
  · have hcond : (decide (total > 1)) = true := by simpa using hsub
    simp only [zeroEnvTargets, hsub, if_true, List.map_append, List.map_map]
    have hext : List.map (BuildCombination.output_dir ∘ fun ext =>
        ({ environment := none, extensions := [ext], combo_names := [],
           output_dir := ext } : BuildCombination))
        (globalExtensions cfg) = globalExtensions cfg := List.map_id' _
    have hcomb : List.map (BuildCombination.output_dir ∘ fun ce =>
        ({ environment := none, extensions := ce.2, combo_names := [ce.1],
           output_dir := ce.1 } : BuildCombination))
        cfg.build.combos = cfg.build.combos.map Prod.fst := rfl
    rw [hext, hcomb]
    exact h6
  · have hlen2 : ((zeroEnvTargets cfg total).map BuildCombination.output_dir).length ≤ 1 := by
      simp only [zeroEnvTargets, List.length_map, List.length_append]
      omega
    cases hz : (zeroEnvTargets cfg total).map BuildCombination.output_dir with
    | nil => exact List.nodup_nil
    | cons a l2 =>
        cases l2 with
        | nil => exact List.nodup_singleton a
        | cons b l3 =>
            rw [hz] at hlen2
            simp at hlen2

/-- C7 (amended): for every configuration the planner accepts whose
environment names are pairwise distinct and slash-free, whose effective
per-environment extension and combo names are jointly duplicate-free and
distinct from `base`, and whose global extension names and combo names do
not collide, the `output_dir` values of the produced target list are
pairwise distinct. -/
theorem c7_output_dirs_unique (cfg : Config) (t : Option BuildTargets)
    (l : List BuildCombination)
    (h1 : (get_environments_list cfg).Nodup)
    (h2 : ∀ e ∈ get_environments_list cfg, slashFree e)
    (h3 : ∀ e ∈ get_environments_list cfg,
        ((effConfig cfg t e).1 ++ (effConfig cfg t e).2.1).Nodup)
    (h4 : ∀ e ∈ get_environments_list cfg,
        "base" ∉ (effConfig cfg t e).1 ++ (effConfig cfg t e).2.1)
    (h6 : (globalExtensions cfg ++ comboKeys cfg).Nodup)
    (h : resolve_legacy_combinations_with_targets cfg t = Except.ok l) :
    (l.map BuildCombination.output_dir).Nodup := by
  simp only [resolve_legacy_combinations_with_targets] at h
  split at h
  · cases h
  · rename_i combs hmain
    split at h
    · rename_i hnum0
      injection h with h2l
      rw [← h2l, List.map_append]
      have hes : get_environments_list cfg = [] := List.length_eq_zero.mp hnum0
      have htoteq : totalVariants cfg t (get_environments_list cfg) =
          (globalExtensions cfg).length + cfg.build.combos.length := by
        rw [totalVariants, hes]
        rfl
      split at hmain
      · rename_i hc1
        injection hmain with h3m
        have htot0 := hc1.2
        rw [htoteq] at htot0
        have hgx : globalExtensions cfg = [] :=
          List.length_eq_zero.mp (by omega)
        have hcb : cfg.build.combos = [] :=
          List.length_eq_zero.mp (by omega)
        have hzero : zeroEnvTargets cfg (totalVariants cfg t (get_environments_list cfg))
            = [] := by
          rw [zeroEnvTargets, hgx, hcb]
          rfl
        rw [hzero, ← h3m]
        simp
      · split at hmain
        · rename_i hc2
          exfalso
          exact absurd rfl (by rw [hnum0] at hc2; omega : ¬(0 : Nat) = 0)
        · split at hmain
          · rename_i hc3
            exfalso
            rw [hnum0] at hc3
            omega
          · split at hmain
            · cases hmain
            · rename_i ls hls
              injection hmain with h3m
              rw [hes, mapME] at hls
              injection hls with h4m
              rw [← h3m, ← h4m]
              simp only [List.flatten_nil, List.map_nil, List.nil_append]
              exact zeroEnvTargets_dirs_nodup cfg _ h6 htoteq.symm
    · rename_i hnum
      injection h with h2l
      rw [← h2l]
      split at hmain
      · rename_i hc1
        exact absurd hc1.1 hnum
      · split at hmain
        · rename_i hc2
          obtain ⟨e0, hes⟩ := List.length_eq_one.mp hc2.1
          have he0 : (get_environments_list cfg).headI = e0 := by rw [hes]; rfl
          have hmem : e0 ∈ get_environments_list cfg := by
            rw [hes]
            exact List.mem_singleton_self e0
          rw [he0] at hmain
          exact singleEnvTargets_dirs_nodup cfg t e0 combs (h3 e0 hmem) (h4 e0 hmem)
            hmain
        · split at hmain
          · injection hmain with h3m
            rw [← h3m, List.map_map]
            have hid : List.map (BuildCombination.output_dir ∘ fun env =>
                ({ environment := some env, extensions := [], combo_names := [],
                   output_dir := env } : BuildCombination))
                (get_environments_list cfg) = get_environments_list cfg :=
              List.map_id' _
            rw [hid]
            exact h1
          · split at hmain
            · cases hmain
            · rename_i ls hls
              injection hmain with h3m
              rw [← h3m]
              exact perEnv_dirs_flatten_nodup cfg t _ (get_environments_list cfg) ls
                hls h1 h2 h3 h4

/-- Witness for C7 (amended) at a concrete two-environment configuration
with a shared extension and a combo. -/
def c7WitnessConfig : Config :=
  ⟨⟨some ["dev", "prod"], some ["auth"], [("sec", ["oidc"])], none, none, false⟩⟩

theorem c7_output_dirs_unique_witness :
    ((([⟨some "dev", [], [], "dev/base"⟩, ⟨some "dev", ["auth"], [], "dev/auth"⟩,
        ⟨some "dev", ["oidc"], ["sec"], "dev/sec"⟩,
        ⟨some "prod", [], [], "prod/base"⟩, ⟨some "prod", ["auth"], [], "prod/auth"⟩,
        ⟨some "prod", ["oidc"], ["sec"], "prod/sec"⟩] :
      List BuildCombination)).map BuildCombination.output_dir).Nodup := by
  refine c7_output_dirs_unique c7WitnessConfig none _ (by decide) ?_ ?_ ?_ (by decide) rfl
  · intro e he
    have : e = "dev" ∨ e = "prod" := by simpa [c7WitnessConfig, get_environments_list] using he
    rcases this with rfl | rfl <;> decide
  · intro e he
    have : e = "dev" ∨ e = "prod" := by simpa [c7WitnessConfig, get_environments_list] using he
    rcases this with rfl | rfl <;> decide
  · intro e he
    have : e = "dev" ∨ e = "prod" := by simpa [c7WitnessConfig, get_environments_list] using he
    rcases this with rfl | rfl <;> decide

/-! ### Loading and merging compose files (`src/merger.rs`, C5) -/

/-- Structure `ComposeMerger` from `src/merger.rs`. -/
structure ComposeMerger where
  base_path : String
  environments_path : String
  extensions_paths : List String

/-- Errors of loading and merging (`FileSystemError::FileReadFailed`,
`YamlError::SerdeError`, `YamlError::InvalidComposeFormat`,
`YamlError::MergeError`). -/
inductive LoadError where
  | fileReadFailed (path : String)
  | serdeError (path : String)
  | invalidComposeFormat (path : String) (details : String)
  | mergeError (details : String)
deriving DecidableEq

/-- Join two path fragments with a slash (`Path::join` on relative
fragments without trailing separators). -/
def pathJoin (a b : String) : String := a ++ "/" ++ b

/-- Function `load_compose_file` from `src/merger.rs`, over an abstract filesystem
(`fs` maps an existing file path to its content) and an abstract YAML
parser (`parse` returns `none` on malformed input): read the file, parse
it, and validate that the document is a mapping with a `services` key. -/
def load_compose_file (fs : String → Option String) (parse : String → Option Value)
    (file_path : String) : Except LoadError Value :=
  match fs file_path with
  | none => Except.error (LoadError.fileReadFailed file_path)
  | some content =>
      match parse content with
      | none => Except.error (LoadError.serdeError file_path)
      | some yaml_value =>
          match yaml_value with
          | Value.map m =>
              if (assocGet m "services").isSome then Except.ok yaml_value
              else Except.error (LoadError.invalidComposeFormat file_path
                "Missing required services section in docker-compose file")
          | _ => Except.error (LoadError.invalidComposeFormat file_path
              "Docker Compose file must be a YAML mapping/object")

/-- Function `resolve_merge_order` from `src/merger.rs`: base file first, then the
environment file if an environment is given, then one file per extension,
probing the extension search directories in order and keeping the first
hit (a missing extension is skipped with a warning). -/
def resolve_merge_order (merger : ComposeMerger) (fsExists : String → Bool)
    (environment : Option String) (extensions : List String) : List String :=
  let base_file := pathJoin merger.base_path "docker-compose.yml"
  let env_files :=
    match environment with
    | some env => [pathJoin (pathJoin merger.environments_path env) "docker-compose.yml"]
    | none => []
  let ext_files := extensions.foldl (fun acc ext =>
    match merger.extensions_paths.find?
        (fun ext_dir => fsExists (pathJoin (pathJoin ext_dir ext) "docker-compose.yml")) with
    | some ext_dir => acc ++ [pathJoin (pathJoin ext_dir ext) "docker-compose.yml"]
    | none => acc) []
  base_file :: env_files ++ ext_files

/-- Whether one string occurs inside another (`str::contains` with a
string pattern). -/
def strContains (s pat : String) : Prop := pat.data <:+: s.data

instance (s pat : String) : Decidable (strContains s pat) := by
  unfold strContains
  infer_instance

/-- The loop of `merge_compose_files`: fold the files in order, counting
successfully processed files; a load failure aborts with the load error if
the path contains `/base/`, and is skipped with a warning otherwise; if no
file was processed the distinct nothing-to-merge error is raised. -/
def merge_compose_go (fs : String → Option String) (parse : String → Option Value) :
    List String → Option Value → Nat → Except LoadError Value
  | [], merged, processed_files =>
      if processed_files = 0 then
        Except.error (LoadError.mergeError "No valid docker-compose files found to merge")
      else
        match merged with
        | some m => Except.ok m
        | none => Except.error (LoadError.mergeError "Failed to merge docker-compose files")
  | file_path :: rest, merged, processed_files =>
      match load_compose_file fs parse file_path with
      | Except.ok yaml_value =>
          merge_compose_go fs parse rest
            (some (match merged with
              | some current => merge_yaml_values current yaml_value
              | none => yaml_value))
            (processed_files + 1)
      | Except.error e =>
          if strContains file_path "/base/" then Except.error e
          else merge_compose_go fs parse rest merged processed_files

/-- Function `merge_compose_files` from `src/merger.rs`. -/
def merge_compose_files (merger : ComposeMerger) (fs : String → Option String)
    (fsExists : String → Bool) (parse : String → Option Value)
    (environment : Option String) (extensions : List String) : Except LoadError Value :=
  merge_compose_go fs parse (resolve_merge_order merger fsExists environment extensions)
    none 0

/-- A parser recognizing exactly one valid document. -/
def c5Parse : String → Option Value := fun content =>
  if content = "servicesdoc" then some (Value.map [("services", Value.map [])]) else none

/-- A merger whose base directory is named `mybase`, so the base file path
does not contain the substring `/base/`. -/
def c5Merger : ComposeMerger := ⟨"/p/mybase", "/p/environments", []⟩

/-- A filesystem in which the base compose file is missing but the
environment file exists and is valid. -/
def c5Fs : String → Option String := fun path =>
  if path = "/p/environments/e/docker-compose.yml" then some "servicesdoc" else none

/-- Counterexample to C5 as stated: the code decides whether a failing
layer is fatal by testing the path for the substring `/base/`, not by the
layer being the base layer.  With the base directory renamed to `mybase`,
the missing base file is demoted to a warning and the merge succeeds on
the environment layer alone, instead of failing with an error identifying
the base file. -/
theorem c5_counterexample :
    load_compose_file c5Fs c5Parse (pathJoin c5Merger.base_path "docker-compose.yml") =
      Except.error (LoadError.fileReadFailed "/p/mybase/docker-compose.yml")
    ∧ merge_compose_files c5Merger c5Fs (fun _ => false) c5Parse (some "e") [] =
      Except.ok (Value.map [("services", Value.map [])]) := by
  constructor
  · rfl
  · rfl

/-- C5 (amended): for every target, (a) if the base layer's file path
contains the substring `/base/` (true under the default layout, where the
base directory is named `base`) and the file cannot be read or parsed or
lacks the mandatory `services` field, the merge returns exactly that load
error, which identifies the file; (b) a layer whose path does not contain
`/base/` and whose file fails to load contributes nothing to the fold; and
(c) if no layer at all loads successfully and no failing path contains
`/base/`, the merge fails with the distinct nothing-to-merge error. -/
theorem c5_failure_semantics (merger : ComposeMerger) (fs : String → Option String)
    (fsExists : String → Bool) (parse : String → Option Value)
    (environment : Option String) (extensions : List String) (e : LoadError)
    (p : String) (rest : List String) (merged : Option Value) (processed : Nat) :
    ((strContains (pathJoin merger.base_path "docker-compose.yml") "/base/" →
      load_compose_file fs parse (pathJoin merger.base_path "docker-compose.yml") =
        Except.error e →
      merge_compose_files merger fs fsExists parse environment extensions =
        Except.error e)
    ∧ (load_compose_file fs parse p = Except.error e → ¬strContains p "/base/" →
      merge_compose_go fs parse (p :: rest) merged processed =
        merge_compose_go fs parse rest merged processed)
    ∧ ((∀ q ∈ resolve_merge_order merger fsExists environment extensions,
          (∃ e2, load_compose_file fs parse q = Except.error e2) ∧
            ¬strContains q "/base/") →
      merge_compose_files merger fs fsExists parse environment extensions =
        Except.error (LoadError.mergeError "No valid docker-compose files found to merge"))) := by
  refine ⟨?_, ?_, ?_⟩
  · intro hbase hload
    rw [merge_compose_files]
    rw [show resolve_merge_order merger fsExists environment extensions =
      pathJoin merger.base_path "docker-compose.yml" ::
        (match environment with
          | some env =>
              [pathJoin (pathJoin merger.environments_path env) "docker-compose.yml"]
          | none => []) ++
        (extensions.foldl (fun acc ext =>
          match merger.extensions_paths.find?
              (fun ext_dir =>
                fsExists (pathJoin (pathJoin ext_dir ext) "docker-compose.yml")) with
          | some ext_dir => acc ++ [pathJoin (pathJoin ext_dir ext) "docker-compose.yml"]
          | none => acc) []) from rfl]
    simp only [merge_compose_go, hload]
    rw [if_pos hbase]
  · intro hload hnb
    simp only [merge_compose_go, hload]
    rw [if_neg hnb]
  · intro hall
    rw [merge_compose_files]
    have hgo : ∀ (paths : List String), (∀ q ∈ paths,
        (∃ e2, load_compose_file fs parse q = Except.error e2) ∧
          ¬strContains q "/base/") →
        ∀ m, merge_compose_go fs parse paths m 0 =
          Except.error (LoadError.mergeError "No valid docker-compose files found to merge") := by
      intro paths
      induction paths with
      | nil => intro _ m; rfl
      | cons q qs ih =>
          intro hq m
          obtain ⟨⟨e2, he2⟩, hnb⟩ := hq q (List.mem_cons_self _ _)
          simp only [merge_compose_go, he2]
          rw [if_neg hnb]
          exact ih (fun x hx => hq x (List.mem_cons_of_mem _ hx)) m
    exact hgo _ hall none

/-- Witness for C5 (amended) at a concrete default-layout merger. -/
theorem c5_failure_semantics_witness :
    merge_compose_files ⟨"/p/base", "/p/environments", []⟩
        (fun _ => none) (fun _ => false) c5Parse none [] =
      Except.error (LoadError.fileReadFailed "/p/base/docker-compose.yml") := by
  have h := c5_failure_semantics ⟨"/p/base", "/p/environments", []⟩ (fun _ => none)
    (fun _ => false) c5Parse none []
    (LoadError.fileReadFailed "/p/base/docker-compose.yml")
    "" [] none 0
  exact h.1 (by decide) rfl

/-! ### Env file reconciliation (`src/build_cleaner.rs`, C3/C4/C10) -/

/-- Structure `PreservedEnvFile` from `src/build_cleaner.rs`. -/
structure PreservedEnvFile where
  original_path : String
  content : String
  environment : Option String
  extensions : List String
deriving DecidableEq

/-- Structure `PathMapping` from `src/build_cleaner.rs`; the `f32` confidence score
(only ever `0.0` or `1.0`) is modelled as a rational. -/
structure PathMapping where
  old_path : String
  new_path : String
  confidence : ℚ

/-- Split a character list at every slash (the components of a relative
path without `.`/`..` segments, as `Path::components` yields them). -/
def splitPath : List Char → List (List Char)
  | [] => [[]]
  | c :: rest =>
      let r := splitPath rest
      if c = '/' then [] :: r
      else
        match r with
        | [] => [[c]]
        | h :: t => (c :: h) :: t

/-- The components of a relative path. -/
def pathComponents (p : String) : List String :=
  if p = "" then [] else (splitPath p.data).map (fun cs => String.mk cs)

/-- The parent `Path::parent` rendered as a string, with `""` for both the empty
parent and a missing parent (as `restore` and `find_best_path_mapping`
use it). -/
def parentDir (p : String) : String :=
  String.intercalate "/" (pathComponents p).dropLast

/-- The file name `Path::file_name` with the empty default. -/
def fileName (p : String) : String :=
  ((pathComponents p).getLast?).getD ""

/-- Function `analyze_env_file_path` from `src/build_cleaner.rs`: with at least two
path components the first is the environment and the middle components
other than `base` are extensions; otherwise nothing is inferred. -/
def analyze_env_file_path (path : String) : Option String × List String :=
  let path_components := pathComponents path
  if path_components.length ≥ 2 then
    (some path_components.headI,
      ((path_components.drop 1).dropLast).filter (fun c => c ≠ "base"))
  else
    (none, [])

/-- Function `find_best_path_mapping` from `src/build_cleaner.rs`: the first entry
of the new structure that is byte-identical to the parent directory of the
file's original path gives an exact match with confidence 1; otherwise the
file cannot be restored and the mapping has confidence 0. -/
def find_best_path_mapping (file : PreservedEnvFile) (new_structure : List String) :
    PathMapping :=
  let expected_dir := parentDir file.original_path
  match new_structure.find?
      (fun ns => ns == expected_dir || (expected_dir == "" && ns == "")) with
  | some new_path_str =>
      { old_path := file.original_path,
        new_path :=
          if new_path_str = "" then fileName file.original_path
          else new_path_str ++ "/" ++ fileName file.original_path,
        confidence := 1 }
  | none =>
      { old_path := file.original_path, new_path := file.original_path,
        confidence := 0 }

/-- Inductive `RestoreResult` from `src/build_cleaner.rs`. -/
inductive RestoreResult where
  | restored (path : String)
  | skippedNoMatch
  | skippedConflict
deriving DecidableEq

/-- Function `restore_single_file` from `src/build_cleaner.rs`, threading the
filesystem state: look the mapping up, skip on low confidence, skip on a
content conflict at the target, otherwise write the preserved content to
the target path. -/
def restore_single_file (build_path : String) (fs : String → Option String)
    (file : PreservedEnvFile) (mappings : List PathMapping) :
    Except String RestoreResult × (String → Option String) :=
  match mappings.find? (fun m => m.old_path == file.original_path) with
  | none => (Except.error "No mapping found for file", fs)
  | some mapping =>
      if mapping.confidence < 1 then (Except.ok RestoreResult.skippedNoMatch, fs)
      else
        let target_path := pathJoin build_path mapping.new_path
        match fs target_path with
        | some existing_content =>
            if existing_content ≠ file.content then
              (Except.ok RestoreResult.skippedConflict, fs)
            else
              (Except.ok (RestoreResult.restored target_path),
                fun p => if p = target_path then some file.content else fs p)
        | none =>
            (Except.ok (RestoreResult.restored target_path),
              fun p => if p = target_path then some file.content else fs p)

/-- The flattened name `file.original_path.to_string_lossy().replace(['/', '\\'], "_")`. -/
def safeFilename (p : String) : String :=
  String.map (fun c => if c = '/' || c = '\\' then '_' else c) p

/-- Function `create_backup_for_failed_files` from `src/build_cleaner.rs`: the
manifest (`metadata.json`) records the files with their original paths,
and each file's content is written under its flattened original path. -/
def create_backup_for_failed_files (files : List PreservedEnvFile) :
    List PreservedEnvFile × List (String × String) :=
  (files, files.map fun f => (safeFilename f.original_path, f.content))

/-- The restore loop of `restore_env_files`: try each preserved file in
order, counting restorations and collecting the files that could not be
restored (no match, conflict, or error), in order. -/
def process_restores (build_path : String) (mappings : List PathMapping) :
    List PreservedEnvFile → (String → Option String) →
      (String → Option String) × Nat × List PreservedEnvFile
  | [], fs => (fs, 0, [])
  | f :: rest, fs =>
      let step := restore_single_file build_path fs f mappings
      let next := process_restores build_path mappings rest step.2
      match step.1 with
      | Except.ok (RestoreResult.restored _) => (next.1, next.2.1 + 1, next.2.2)
      | Except.ok RestoreResult.skippedNoMatch => (next.1, next.2.1, f :: next.2.2)
      | Except.ok RestoreResult.skippedConflict => (next.1, next.2.1, f :: next.2.2)
      | Except.error _ => (next.1, next.2.1, f :: next.2.2)

/-- The outcome of `restore_env_files`: the final build-tree state, the
number of restored files, the files that could not be restored, and the
backup written for them (manifest plus flattened content files; empty when
nothing failed). -/
structure RestoreOutcome where
  fs : String → Option String
  restored_count : Nat
  failed_files : List PreservedEnvFile
  backup_manifest : List PreservedEnvFile
  backup_files : List (String × String)

/-- Function `restore_env_files` from `src/build_cleaner.rs`. -/
def restore_env_files (build_path : String) (preserve_env_files : Bool)
    (preserved_files : Option (List PreservedEnvFile)) (new_structure : List String)
    (fs : String → Option String) : RestoreOutcome :=
  if !preserve_env_files then ⟨fs, 0, [], [], []⟩
  else
    match preserved_files with
    | none => ⟨fs, 0, [], [], []⟩
    | some files =>
        if files.isEmpty then ⟨fs, 0, [], [], []⟩
        else
          let mappings := files.map (fun f => find_best_path_mapping f new_structure)
          let r := process_restores build_path mappings files fs
          if r.2.2.isEmpty then ⟨r.1, r.2.1, r.2.2, [], []⟩
          else
            let backup := create_backup_for_failed_files r.2.2
            ⟨r.1, r.2.1, r.2.2, backup.1, backup.2⟩

theorem find_best_old_path (f : PreservedEnvFile) (ns : List String) :
    (find_best_path_mapping f ns).old_path = f.original_path := by
  rw [find_best_path_mapping]
  cases hf : ns.find? (fun n => n == parentDir f.original_path ||
      (parentDir f.original_path == "" && n == "")) with
  | some y => rfl
  | none => rfl

theorem find_best_confidence_of_mem (f : PreservedEnvFile) (ns : List String)
    (h : parentDir f.original_path ∈ ns) :
    (find_best_path_mapping f ns).confidence = 1 ∧
    (find_best_path_mapping f ns).new_path =
      (if parentDir f.original_path = "" then fileName f.original_path
       else parentDir f.original_path ++ "/" ++ fileName f.original_path) := by
  rw [find_best_path_mapping]
  cases hf : ns.find? (fun n => n == parentDir f.original_path ||
      (parentDir f.original_path == "" && n == "")) with
  | some y =>
      have hy := List.find?_some hf
      have hye : y = parentDir f.original_path := by
        simp only [Bool.or_eq_true, Bool.and_eq_true, beq_iff_eq] at hy
        rcases hy with h1 | ⟨h2a, h2b⟩
        · exact h1
        · rw [h2b, h2a]
      constructor
      · rfl
      · rw [hye]
  | none =>
      exfalso
      have := List.find?_eq_none.mp hf (parentDir f.original_path) h
      simp at this

theorem find_best_confidence_of_not_mem (f : PreservedEnvFile) (ns : List String)
    (h : parentDir f.original_path ∉ ns) :
    (find_best_path_mapping f ns).confidence = 0 := by
  rw [find_best_path_mapping]
  cases hf : ns.find? (fun n => n == parentDir f.original_path ||
      (parentDir f.original_path == "" && n == "")) with
  | some y =>
      exfalso
      have hy := List.find?_some hf
      have hymem : y ∈ ns := List.mem_of_find?_eq_some hf
      have hye : y = parentDir f.original_path := by
        simp only [Bool.or_eq_true, Bool.and_eq_true, beq_iff_eq] at hy
        rcases hy with h1 | ⟨h2a, h2b⟩
        · exact h1
        · rw [h2b, h2a]
      exact h (hye ▸ hymem)
  | none => rfl

theorem find_best_self_find (f : PreservedEnvFile) (ns : List String) :
    ([find_best_path_mapping f ns].find? (fun m => m.old_path == f.original_path)) =
      some (find_best_path_mapping f ns) := by
  have hp : ((find_best_path_mapping f ns).old_path == f.original_path) = true := by
    rw [find_best_old_path]
    simp
  exact List.find?_cons_of_pos _ hp

/-- Exact-match, no-conflict scenario: the file is restored to the mapped
target with its original content, nothing is backed up. -/
theorem restore_env_files_exact (f : PreservedEnvFile) (ns : List String)
    (fs : String → Option String) (build_path : String)
    (hmem : parentDir f.original_path ∈ ns)
    (hnoconf : ∀ c, fs (pathJoin build_path (find_best_path_mapping f ns).new_path) =
      some c → c = f.content) :
    restore_env_files build_path true (some [f]) ns fs =
      ⟨(fun p => if p = pathJoin build_path (find_best_path_mapping f ns).new_path
          then some f.content else fs p), 1, [], [], []⟩ := by
  have hconf := (find_best_confidence_of_mem f ns hmem).1
  have hstep : restore_single_file build_path fs f [find_best_path_mapping f ns] =
      (Except.ok (RestoreResult.restored
          (pathJoin build_path (find_best_path_mapping f ns).new_path)),
        fun p => if p = pathJoin build_path (find_best_path_mapping f ns).new_path
          then some f.content else fs p) := by
    simp only [restore_single_file, find_best_self_find]
    rw [if_neg (by rw [hconf]; norm_num)]
    cases hfs : fs (pathJoin build_path (find_best_path_mapping f ns).new_path) with
    | none => rfl
    | some c =>
        have hceq : c = f.content := hnoconf c hfs
        subst hceq
        simp
  simp only [restore_env_files, Bool.not_true, Bool.false_eq_true, if_false,
    List.isEmpty_cons, List.map_cons, List.map_nil, process_restores, hstep]
  rfl

/-- No-exact-match scenario: the file is left out of the build tree and
backed up, with its original path in the manifest and its content under
its flattened original path. -/
theorem restore_env_files_nomatch (f : PreservedEnvFile) (ns : List String)
    (fs : String → Option String) (build_path : String)
    (hnot : parentDir f.original_path ∉ ns) :
    restore_env_files build_path true (some [f]) ns fs =
      ⟨fs, 0, [f], [f], [(safeFilename f.original_path, f.content)]⟩ := by
  have hconf := find_best_confidence_of_not_mem f ns hnot
  have hstep : restore_single_file build_path fs f [find_best_path_mapping f ns] =
      (Except.ok RestoreResult.skippedNoMatch, fs) := by
    simp only [restore_single_file, find_best_self_find]
    rw [if_pos (by rw [hconf]; norm_num)]
  simp only [restore_env_files, Bool.not_true, Bool.false_eq_true, if_false,
    List.isEmpty_cons, List.map_cons, List.map_nil, process_restores, hstep]
  rfl

/-- Conflict scenario: the destination already holds different content;
the write is skipped, the destination keeps its content, and the preserved
file goes to the backup. -/
theorem restore_env_files_conflict (f : PreservedEnvFile) (ns : List String)
    (fs : String → Option String) (build_path : String) (c : String)
    (hmem : parentDir f.original_path ∈ ns)
    (hc : fs (pathJoin build_path (find_best_path_mapping f ns).new_path) = some c)
    (hne : c ≠ f.content) :
    restore_single_file build_path fs f [find_best_path_mapping f ns] =
      (Except.ok RestoreResult.skippedConflict, fs)
    ∧ restore_env_files build_path true (some [f]) ns fs =
      ⟨fs, 0, [f], [f], [(safeFilename f.original_path, f.content)]⟩ := by
  have hconf := (find_best_confidence_of_mem f ns hmem).1
  have hstep : restore_single_file build_path fs f [find_best_path_mapping f ns] =
      (Except.ok RestoreResult.skippedConflict, fs) := by
    simp only [restore_single_file, find_best_self_find]
    rw [if_neg (by rw [hconf]; norm_num), hc]
    simp [hne]
  refine ⟨hstep, ?_⟩
  simp only [restore_env_files, Bool.not_true, Bool.false_eq_true, if_false,
    List.isEmpty_cons, List.map_cons, List.map_nil, process_restores, hstep]
  rfl

/-- Counterexample to C3 as stated: the original path `dev/auth/.env` has
an exactly matching candidate `dev/auth`, yet the file is not restored,
because the destination already holds different content; restoration is
not equivalent to the existence of an exact match. -/
theorem c3_counterexample :
    parentDir "dev/auth/.env" = "dev/auth"
    ∧ ("dev/auth" : String) ∈ ["dev/auth"]
    ∧ (restore_env_files "build" true
        (some [⟨"dev/auth/.env", "SECRET=new", some "dev", ["auth"]⟩]) ["dev/auth"]
        (fun p => if p = "build/dev/auth/.env" then some "OTHER" else none)).restored_count
        = 0
    ∧ (restore_env_files "build" true
        (some [⟨"dev/auth/.env", "SECRET=new", some "dev", ["auth"]⟩]) ["dev/auth"]
        (fun p => if p = "build/dev/auth/.env" then some "OTHER" else none)).fs
        "build/dev/auth/.env" = some "OTHER"
    ∧ (restore_env_files "build" true
        (some [⟨"dev/auth/.env", "SECRET=new", some "dev", ["auth"]⟩]) ["dev/auth"]
        (fun p => if p = "build/dev/auth/.env" then some "OTHER" else none)).backup_manifest
        = [⟨"dev/auth/.env", "SECRET=new", some "dev", ["auth"]⟩] :=
  ⟨rfl, List.mem_singleton_self _, rfl, rfl, rfl⟩

/-- C3 (amended): a preserved file maps with confidence 1.0 exactly when
some candidate outputDir is byte-identical to the parent directory of its
original relative path; when it does and no byte-different file occupies
the destination, it is restored there with byte-identical content and is
not backed up; when an exact match exists but the destination holds
different content, or when no candidate matches, the file is not restored
and instead appears in the backup with its original relative path recorded
in the manifest. -/
theorem c3_exact_match_restore (f : PreservedEnvFile) (ns : List String)
    (fs : String → Option String) (build_path : String) :
    ((find_best_path_mapping f ns).confidence = 1 ↔ parentDir f.original_path ∈ ns)
    ∧ ((parentDir f.original_path ∈ ns
        ∧ (∀ c, fs (pathJoin build_path (find_best_path_mapping f ns).new_path) =
            some c → c = f.content)
        ∧ (restore_env_files build_path true (some [f]) ns fs).fs
            (pathJoin build_path (find_best_path_mapping f ns).new_path) = some f.content
        ∧ (restore_env_files build_path true (some [f]) ns fs).restored_count = 1
        ∧ (restore_env_files build_path true (some [f]) ns fs).backup_manifest = [])
      ∨ (∃ c, parentDir f.original_path ∈ ns
        ∧ fs (pathJoin build_path (find_best_path_mapping f ns).new_path) = some c
        ∧ c ≠ f.content
        ∧ (restore_env_files build_path true (some [f]) ns fs).fs = fs
        ∧ (restore_env_files build_path true (some [f]) ns fs).backup_manifest = [f]
        ∧ (safeFilename f.original_path, f.content) ∈
            (restore_env_files build_path true (some [f]) ns fs).backup_files)
      ∨ (parentDir f.original_path ∉ ns
        ∧ (restore_env_files build_path true (some [f]) ns fs).fs = fs
        ∧ (restore_env_files build_path true (some [f]) ns fs).restored_count = 0
        ∧ (restore_env_files build_path true (some [f]) ns fs).backup_manifest = [f]
        ∧ (safeFilename f.original_path, f.content) ∈
            (restore_env_files build_path true (some [f]) ns fs).backup_files)) := by
  constructor
  · constructor
    · intro hc
      by_contra hnot
      rw [find_best_confidence_of_not_mem f ns hnot] at hc
      norm_num at hc
    · intro hm
      exact (find_best_confidence_of_mem f ns hm).1
  · by_cases hm : parentDir f.original_path ∈ ns
    · rcases Option.eq_none_or_eq_some
          (fs (pathJoin build_path (find_best_path_mapping f ns).new_path)) with
        hfs | ⟨c, hfs⟩
      · left
        have hnc : ∀ c, fs (pathJoin build_path (find_best_path_mapping f ns).new_path)
            = some c → c = f.content := by
          intro c hcc
          rw [hfs] at hcc
          cases hcc
        rw [restore_env_files_exact f ns fs build_path hm hnc]
        exact ⟨hm, hnc, by simp, rfl, rfl⟩
      · by_cases hceq : c = f.content
        · left
          have hnc : ∀ c2, fs (pathJoin build_path
              (find_best_path_mapping f ns).new_path) = some c2 → c2 = f.content := by
            intro c2 hcc
            rw [hfs] at hcc
            injection hcc with h2
            rw [← h2, hceq]
          rw [restore_env_files_exact f ns fs build_path hm hnc]
          exact ⟨hm, hnc, by simp, rfl, rfl⟩
        · right
          left
          obtain ⟨_, houtcome⟩ := restore_env_files_conflict f ns fs build_path c hm hfs hceq
          rw [houtcome]
          exact ⟨c, hm, hfs, hceq, rfl, rfl, by simp⟩
    · right
      right
      rw [restore_env_files_nomatch f ns fs build_path hm]
      exact ⟨hm, rfl, rfl, rfl, by simp⟩

/-- C4: when the restore destination of an exactly matched preserved file
already exists with byte-different content, the restore skips the write
(the destination keeps its content, the whole tree state is unchanged) and
the preserved content is written to the backup instead. -/
theorem c4_conflict_skips_write (f : PreservedEnvFile) (ns : List String)
    (fs : String → Option String) (build_path : String) (c : String)
    (hm : parentDir f.original_path ∈ ns)
    (hc : fs (pathJoin build_path (find_best_path_mapping f ns).new_path) = some c)
    (hne : c ≠ f.content) :
    (restore_single_file build_path fs f [find_best_path_mapping f ns]).1 =
      Except.ok RestoreResult.skippedConflict
    ∧ (restore_env_files build_path true (some [f]) ns fs).fs = fs
    ∧ (restore_env_files build_path true (some [f]) ns fs).fs
        (pathJoin build_path (find_best_path_mapping f ns).new_path) = some c
    ∧ (restore_env_files build_path true (some [f]) ns fs).backup_manifest = [f]
    ∧ (safeFilename f.original_path, f.content) ∈
        (restore_env_files build_path true (some [f]) ns fs).backup_files := by
  obtain ⟨hstep, houtcome⟩ := restore_env_files_conflict f ns fs build_path c hm hc hne
  rw [houtcome, hstep]
  exact ⟨rfl, rfl, hc, rfl, by simp⟩

/-- Witness for C4 at a concrete conflicting destination. -/
theorem c4_conflict_skips_write_witness :
    (restore_single_file "build"
        (fun p => if p = "build/dev/auth/.env" then some "OLD" else none)
        ⟨"dev/auth/.env", "NEW", some "dev", ["auth"]⟩
        [find_best_path_mapping ⟨"dev/auth/.env", "NEW", some "dev", ["auth"]⟩
          ["dev/auth"]]).1 = Except.ok RestoreResult.skippedConflict
    ∧ (restore_env_files "build" true
        (some [⟨"dev/auth/.env", "NEW", some "dev", ["auth"]⟩]) ["dev/auth"]
        (fun p => if p = "build/dev/auth/.env" then some "OLD" else none)).fs =
      (fun p => if p = "build/dev/auth/.env" then some "OLD" else none)
    ∧ (restore_env_files "build" true
        (some [⟨"dev/auth/.env", "NEW", some "dev", ["auth"]⟩]) ["dev/auth"]
        (fun p => if p = "build/dev/auth/.env" then some "OLD" else none)).fs
        (pathJoin "build" (find_best_path_mapping
          ⟨"dev/auth/.env", "NEW", some "dev", ["auth"]⟩ ["dev/auth"]).new_path) =
      some "OLD"
    ∧ (restore_env_files "build" true
        (some [⟨"dev/auth/.env", "NEW", some "dev", ["auth"]⟩]) ["dev/auth"]
        (fun p => if p = "build/dev/auth/.env" then some "OLD" else none)).backup_manifest
        = [⟨"dev/auth/.env", "NEW", some "dev", ["auth"]⟩]
    ∧ (safeFilename "dev/auth/.env", "NEW") ∈
        (restore_env_files "build" true
          (some [⟨"dev/auth/.env", "NEW", some "dev", ["auth"]⟩]) ["dev/auth"]
          (fun p => if p = "build/dev/auth/.env" then some "OLD" else none)).backup_files :=
  c4_conflict_skips_write ⟨"dev/auth/.env", "NEW", some "dev", ["auth"]⟩ ["dev/auth"]
    (fun p => if p = "build/dev/auth/.env" then some "OLD" else none) "build" "OLD"
    (by decide) rfl (by decide)

theorem splitPath_no_slash (l : List Char) (h : '/' ∉ l) : splitPath l = [l] := by
  induction l with
  | nil => rfl
  | cons c rest ih =>
      have hc : ¬c = '/' := fun hh => h (hh ▸ List.mem_cons_self c rest)
      have hrest : '/' ∉ rest := fun hh => h (List.mem_cons_of_mem _ hh)
      simp [splitPath, ih hrest, hc]

theorem parentDir_no_slash (p : String) (h : '/' ∉ p.data) : parentDir p = "" := by
  rw [parentDir, pathComponents]
  by_cases hp : p = ""
  · rw [if_pos hp]
    rfl
  · rw [if_neg hp, splitPath_no_slash p.data h]
    rfl

theorem fileName_no_slash (p : String) (h : '/' ∉ p.data) : fileName p = p := by
  rw [fileName, pathComponents]
  by_cases hp : p = ""
  · rw [if_pos hp, hp]
    rfl
  · rw [if_neg hp, splitPath_no_slash p.data h]
    rfl

theorem analyze_no_slash (p : String) (h : '/' ∉ p.data) :
    analyze_env_file_path p = (none, []) := by
  rw [analyze_env_file_path]
  have hlen : (pathComponents p).length ≤ 1 := by
    rw [pathComponents]
    by_cases hp : p = ""
    · rw [if_pos hp]
      exact Nat.zero_le 1
    · rw [if_neg hp, splitPath_no_slash p.data h]
      exact Nat.le_refl 1
  rw [if_neg (by omega)]

/-- C10: a preserved file whose original relative path has no directory
component gets no environment and no extensions from the scan's path
decomposition; it maps with confidence 1.0 exactly when the new target
list contains the empty-string outputDir sentinel, its restore target is
then the file name directly under the build root, and (when no conflicting
file occupies that target) it is restored there. -/
theorem c10_toplevel_file (f : PreservedEnvFile) (ns : List String)
    (fs : String → Option String) (build_path : String)
    (h : '/' ∉ f.original_path.data) :
    analyze_env_file_path f.original_path = (none, [])
    ∧ ((find_best_path_mapping f ns).confidence = 1 ↔ "" ∈ ns)
    ∧ ("" ∈ ns → (find_best_path_mapping f ns).new_path = f.original_path)
    ∧ ("" ∈ ns →
        (∀ c, fs (pathJoin build_path f.original_path) = some c → c = f.content) →
        (restore_env_files build_path true (some [f]) ns fs).fs
          (pathJoin build_path f.original_path) = some f.content) := by
  have hpd : parentDir f.original_path = "" := parentDir_no_slash _ h
  have hfn : fileName f.original_path = f.original_path := fileName_no_slash _ h
  refine ⟨analyze_no_slash _ h, ?_, ?_, ?_⟩
  · constructor
    · intro hc
      by_contra hnot
      rw [find_best_confidence_of_not_mem f ns (by rw [hpd]; exact hnot)] at hc
      norm_num at hc
    · intro hm
      exact (find_best_confidence_of_mem f ns (by rw [hpd]; exact hm)).1
  · intro hm
    have := (find_best_confidence_of_mem f ns (by rw [hpd]; exact hm)).2
    rw [hpd] at this
    rw [this, if_pos rfl, hfn]
  · intro hm hnc
    have hnp := (find_best_confidence_of_mem f ns (by rw [hpd]; exact hm)).2
    rw [hpd] at hnp
    rw [if_pos rfl, hfn] at hnp
    have hnc2 : ∀ c, fs (pathJoin build_path (find_best_path_mapping f ns).new_path) =
        some c → c = f.content := by
      rw [hnp]
      exact hnc
    rw [restore_env_files_exact f ns fs build_path (by rw [hpd]; exact hm) hnc2, hnp]
    simp

/-- Witness for C10 at a concrete root-level `.env` file. -/
theorem c10_toplevel_file_witness :
    analyze_env_file_path ".env" = (none, [])
    ∧ ((find_best_path_mapping ⟨".env", "KEY=v", none, []⟩ [""]).confidence = 1 ↔
        ("" : String) ∈ [""])
    ∧ (("" : String) ∈ [""] →
        (find_best_path_mapping ⟨".env", "KEY=v", none, []⟩ [""]).new_path = ".env")
    ∧ (("" : String) ∈ [""] →
        (∀ c, (fun _ => (none : Option String)) (pathJoin "build" ".env") = some c →
          c = "KEY=v") →
        (restore_env_files "build" true (some [⟨".env", "KEY=v", none, []⟩]) [""]
          (fun _ => none)).fs (pathJoin "build" ".env") = some "KEY=v") :=
  c10_toplevel_file ⟨".env", "KEY=v", none, []⟩ [""] (fun _ => none) "build" (by decide)

end Stackbuilder
